import Mathlib

/-!
# LRU cache (`src/main.go`): shallow embedding and verified properties

The Go program keeps a `container/list` doubly linked list (`queue`, front =
most recently used) and a `map[string]*list.Element` (`items`).  Pointers to
list elements are modelled as natural-number handles into an element store;
the list itself is the sequence of handles read front to back.  The mutex is
not modelled: every operation is taken as one atomic step.
-/

namespace LRUCache

/-! ## Data model -/

/-- Values of Go's `any` that a cache payload ranges over; `nil` is the zero
value, `other` stands for a value of any further dynamic type (the cache never
inspects a payload). -/
inductive GoAny where
  | nil
  | int (n : Int)
  | str (s : String)
  | other (tag : Nat)
  deriving DecidableEq, Repr

/-- Item of `main.go`: the key and the value kept in one queue element. -/
structure Item where
  Key : String
  Value : GoAny
  deriving DecidableEq, Repr

/-- Dynamic content of the field `Value any` of a `list.Element`: something that
is not a `*Item` (the nil interface included), a nil `*Item`, or a pointer to
an `Item` (the pointee is stored inline: an `Item` is owned by one element). -/
inductive ElemValue where
  | other
  | nilItem
  | item (it : Item)
  deriving DecidableEq, Repr

/-- LRU of `main.go`.  `queue` lists the element handles of the `*list.List`
front to back, `items` is the map from key to element handle (an association
list without order meaning), `elems` gives the `Value` field of every element
ever allocated and `fresh` is the next unused handle. -/
structure LRU where
  capacity : Int
  queue : List Nat
  items : List (String × Nat)
  elems : Nat → ElemValue
  fresh : Nat

/-! ## Go built-ins used by the program: `map` and `container/list` -/

namespace GoMap

/-- Map read `m[k]` in its comma-ok form. -/
def get (m : List (String × Nat)) (k : String) : Option Nat :=
  m.lookup k

/-- Built-in `delete(m, k)`. -/
def delete (m : List (String × Nat)) (k : String) : List (String × Nat) :=
  m.filter (fun p => p.1 ≠ k)

/-- Map write `m[k] = e`: an existing binding of `k` is replaced. -/
def set (m : List (String × Nat)) (k : String) (e : Nat) : List (String × Nat) :=
  (k, e) :: delete m k

end GoMap

namespace GoList

/-- Method `Len` of `list.List`. -/
def Len (q : List Nat) : Int := q.length

/-- Method `Back` of `list.List`: the last element, nil on an empty list. -/
def Back (q : List Nat) : Option Nat := q.getLast?

/-- Method `MoveToFront`: nothing happens when `e` is not an element of the
list or is already its first element. -/
def MoveToFront (q : List Nat) (e : Nat) : List Nat :=
  if e ∉ q ∨ q.head? = some e then q else e :: q.erase e

/-- Method `Remove`: unlinks `e` when it is an element of the list (the
caller reads `e.Value` from the element store). -/
def Remove (q : List Nat) (e : Nat) : List Nat :=
  if e ∈ q then q.erase e else q

end GoList

/-! ## The operations of `main.go` -/

namespace LRU

/-- Constructor `NewLRU`: a capacity that is zero or negative becomes 1. -/
def NewLRU (capacity : Int) : LRU :=
  let capacity := if capacity ≤ 0 then 1 else capacity
  { capacity := capacity, queue := [], items := [], elems := fun _ => .other, fresh := 0 }

/-- Method `deleteElement`: unlink the element, then delete its key from the
map; returns early on a nil element and when the removed value is not a
non-nil `*Item`. -/
def deleteElement (c : LRU) (element : Option Nat) : LRU :=
  match element with
  | none => c
  | some e =>
    let c1 := { c with queue := GoList.Remove c.queue e }
    match c.elems e with
    | .item it => { c1 with items := GoMap.delete c1.items it.Key }
    | _ => c1

/-- Method `evictOne`: delete the element at the back, if there is one. -/
def evictOne (c : LRU) : LRU :=
  match GoList.Back c.queue with
  | some element => deleteElement c (some element)
  | none => c

/-- Method `Add`.  The result is `none` when the unchecked type assertion
`element.Value.(*Item)` or the write through its result panics. -/
def Add (c : LRU) (key : String) (value : GoAny) : Option LRU :=
  match GoMap.get c.items key with
  | some element =>
    match c.elems element with
    | .item it =>
      let c1 := { c with elems := Function.update c.elems element (.item { it with Value := value }) }
      some { c1 with queue := GoList.MoveToFront c1.queue element }
    | _ => none
  | none =>
    let c1 := if GoList.Len c.queue ≥ c.capacity then evictOne c else c
    let element := c1.fresh
    some { c1 with
      elems := Function.update c1.elems element (.item { Key := key, Value := value })
      fresh := c1.fresh + 1
      queue := element :: c1.queue
      items := GoMap.set c1.items key element }

/-- Method `Get`: the returned pair and the state after the call; `none` when
the type assertion or the read through its result panics. -/
def Get (c : LRU) (key : String) : Option ((GoAny × Bool) × LRU) :=
  match GoMap.get c.items key with
  | none => some ((.nil, false), c)
  | some element =>
    let c1 := { c with queue := GoList.MoveToFront c.queue element }
    match c1.elems element with
    | .item it => some ((it.Value, true), c1)
    | _ => none

/-- Method `Peek`: as `Get` without the move to the front. -/
def Peek (c : LRU) (key : String) : Option ((GoAny × Bool) × LRU) :=
  match GoMap.get c.items key with
  | none => some ((.nil, false), c)
  | some element =>
    match c.elems element with
    | .item it => some ((it.Value, true), c)
    | _ => none

/-- Method `Remove`. -/
def Remove (c : LRU) (key : String) : Bool × LRU :=
  match GoMap.get c.items key with
  | some element => (true, deleteElement c (some element))
  | none => (false, c)

/-- Method `Len`. -/
def Len (c : LRU) : Int := GoList.Len c.queue

/-- Method `Clear`: a new empty list and a new empty map. -/
def Clear (c : LRU) : LRU :=
  { c with queue := [], items := [] }

end LRU

/-! ## Sequences of calls -/

/-- One call of the public interface. -/
inductive Op where
  | add (key : String) (value : GoAny)
  | get (key : String)
  | peek (key : String)
  | remove (key : String)
  | len
  | clear
  deriving DecidableEq, Repr

/-- What a call returns. -/
inductive Res where
  | unit
  | value (v : GoAny) (found : Bool)
  | removed (b : Bool)
  | count (n : Int)
  deriving DecidableEq, Repr

/-- Run one call; `none` when the call panics. -/
def step (c : LRU) : Op → Option (Res × LRU)
  | .add k v => (LRU.Add c k v).map (fun c1 => (.unit, c1))
  | .get k => (LRU.Get c k).map (fun r => (.value r.1.1 r.1.2, r.2))
  | .peek k => (LRU.Peek c k).map (fun r => (.value r.1.1 r.1.2, r.2))
  | .remove k => some (.removed (LRU.Remove c k).1, (LRU.Remove c k).2)
  | .len => some (.count (LRU.Len c), c)
  | .clear => some (.unit, LRU.Clear c)

/-- Run a sequence of calls from left to right, collecting what they return. -/
def run (c : LRU) : List Op → Option (List Res × LRU)
  | [] => some ([], c)
  | op :: ops =>
    match step c op with
    | none => none
    | some (r, c1) =>
      match run c1 ops with
      | none => none
      | some (rs, c2) => some (r :: rs, c2)

/-- States the program can be in: what a finite sequence of calls makes of a
freshly constructed cache. -/
inductive Reachable : LRU → Prop where
  | init (n : Int) : Reachable (LRU.NewLRU n)
  | step {c c1 : LRU} (op : Op) (r : Res) : Reachable c → step c op = some (r, c1) → Reachable c1

/-- The ordering read front to back: the `Value` field of each queue element. -/
def ordering (c : LRU) : List ElemValue := c.queue.map c.elems

/-- Test whether an element value is an item with key `k`. -/
def keyIs (k : String) : ElemValue → Bool
  | .item it => it.Key == k
  | _ => false

/-- The entries of `l` whose key is not `k`, in the order they have in `l`. -/
def without (k : String) (l : List ElemValue) : List ElemValue :=
  l.filter (fun x => !keyIs k x)

/-- Structural invariant tying the queue, the element store and the map. -/
structure Inv (c : LRU) : Prop where
  cap_pos : 1 ≤ c.capacity
  len_le : (c.queue.length : Int) ≤ c.capacity
  nodup : c.queue.Nodup
  lt_fresh : ∀ h ∈ c.queue, h < c.fresh
  keys_nodup : (c.items.map Prod.fst).Nodup
  queue_items : ∀ h ∈ c.queue, ∃ it, c.elems h = .item it ∧ GoMap.get c.items it.Key = some h
  items_queue : ∀ k h, GoMap.get c.items k = some h →
    h ∈ c.queue ∧ ∃ it, c.elems h = .item it ∧ it.Key = k

/-- What one call does to the ordering, as a function of capacity and ordering
alone (a proof device: the operations of the program are the ones above). -/
def absStep (cap : Int) (l : List ElemValue) : Op → Res × List ElemValue
  | .add k v =>
    (.unit,
      if l.any (keyIs k) then .item ⟨k, v⟩ :: without k l
      else if (l.length : Int) ≥ cap then .item ⟨k, v⟩ :: l.dropLast
      else .item ⟨k, v⟩ :: l)
  | .get k =>
    match l.find? (keyIs k) with
    | some (.item it) => (.value it.Value true, .item it :: without k l)
    | _ => (.value .nil false, l)
  | .peek k =>
    match l.find? (keyIs k) with
    | some (.item it) => (.value it.Value true, l)
    | _ => (.value .nil false, l)
  | .remove k => (.removed (l.any (keyIs k)), without k l)
  | .len => (.count l.length, l)
  | .clear => (.unit, [])

/-- Key `k` is in the cache with value `v`: the index maps `k` to an element
whose item is `(k, v)`. -/
def LRU.holds (c : LRU) (k : String) (v : GoAny) : Prop :=
  (GoMap.get c.items k).map c.elems = some (.item ⟨k, v⟩)

/-- Key `k` is not in the cache: the index has no entry for it. -/
def LRU.lacks (c : LRU) (k : String) : Prop :=
  GoMap.get c.items k = none

instance (c : LRU) (k : String) (v : GoAny) : Decidable (c.holds k v) :=
  inferInstanceAs (Decidable ((GoMap.get c.items k).map c.elems = some (.item ⟨k, v⟩)))

instance (c : LRU) (k : String) : Decidable (c.lacks k) :=
  inferInstanceAs (Decidable (GoMap.get c.items k = none))

/-- The state a fresh cache of capacity `n` is in after the calls `ops`. -/
def stateAfter (n : Int) (ops : List Op) : LRU :=
  match run (LRU.NewLRU n) ops with
  | some (_, c) => c
  | none => LRU.NewLRU n

/-- The first lines of `TestLRUBasic`: capacity 2, then `a` and `b` are added. -/
def demoFull : LRU := stateAfter 2 [.add "a" (.int 1), .add "b" (.int 2)]

/-- The (key, value) pairs of the `Add` calls of a sequence, in call order. -/
def addsOf : List Op → List Item
  | [] => []
  | .add k v :: ops => ⟨k, v⟩ :: addsOf ops
  | _ :: ops => addsOf ops

/-- Calls of the eviction scenario: any `Add`, and `Get` or `Peek` on a key
other than `k0`. -/
def touchFree (k0 : String) : Op → Bool
  | .add _ _ => true
  | .get k => k != k0
  | .peek k => k != k0
  | _ => false

/-- Iterate `absStep` over a sequence of calls. -/
def absRun (cap : Int) (l : List ElemValue) : List Op → List Res × List ElemValue
  | [] => ([], l)
  | op :: ops =>
    ((absStep cap l op).1 :: (absRun cap (absStep cap l op).2 ops).1,
      (absRun cap (absStep cap l op).2 ops).2)

/-- The calls `Add a.Key a.Value` for the pairs `a` of a list, in list order. -/
def addOps (adds : List Item) : List Op :=
  adds.map (fun a => .add a.Key a.Value)

/-- A cache of capacity 3 holding two entries: there is room for one more. -/
def demoRoom : LRU := stateAfter 3 [.add "a" (.int 1), .add "b" (.int 2)]

/-- The item an element value points to, if it is a non-nil `*Item`. -/
def ElemValue.item? : ElemValue → Option Item
  | .item it => some it
  | _ => none

/-- The items of the ordering, front to back. -/
def entries (c : LRU) : List Item := (ordering c).filterMap ElemValue.item?

/-! ## The pure model of the refinement claim

State: a capacity and a list of (key, value) pairs, front first. -/

namespace SpecModel

/-- The list `l` without the pair of key `k`. -/
def without (k : String) (l : List (String × GoAny)) : List (String × GoAny) :=
  l.filter (fun p => p.1 ≠ k)

/-- Model `Add`: `(k, v) :: (l without k)` if `k` is in `l`, else
`(k, v) :: (l without its last element)` if `length l ≥ cap`, else `(k, v) :: l`. -/
def Add (cap : Int) (l : List (String × GoAny)) (k : String) (v : GoAny) :
    List (String × GoAny) :=
  if (l.lookup k).isSome then (k, v) :: without k l
  else if (l.length : Int) ≥ cap then (k, v) :: l.dropLast
  else (k, v) :: l

/-- Model `Get`: lookup, then move `k` to the front. -/
def Get (l : List (String × GoAny)) (k : String) : (GoAny × Bool) × List (String × GoAny) :=
  match l.lookup k with
  | some v => ((v, true), (k, v) :: without k l)
  | none => ((.nil, false), l)

/-- Model `Peek`: lookup. -/
def Peek (l : List (String × GoAny)) (k : String) : GoAny × Bool :=
  match l.lookup k with
  | some v => (v, true)
  | none => (.nil, false)

/-- Model `Remove`: erase `k`; the result tells whether `k` was there. -/
def Remove (l : List (String × GoAny)) (k : String) : Bool × List (String × GoAny) :=
  ((l.lookup k).isSome, without k l)

/-- Model `Len`: the length of `l`. -/
def Len (l : List (String × GoAny)) : Int := l.length

/-- Model `Clear`: the empty list. -/
def Clear : List (String × GoAny) := []

/-- One call on the model. -/
def step (cap : Int) (l : List (String × GoAny)) : Op → Res × List (String × GoAny)
  | .add k v => (.unit, Add cap l k v)
  | .get k => (.value (Get l k).1.1 (Get l k).1.2, (Get l k).2)
  | .peek k => (.value (Peek l k).1 (Peek l k).2, l)
  | .remove k => (.removed (Remove l k).1, (Remove l k).2)
  | .len => (.count (Len l), l)
  | .clear => (.unit, Clear)

/-- A sequence of calls on the model, with the results collected. -/
def run (cap : Int) (l : List (String × GoAny)) : List Op → List Res × List (String × GoAny)
  | [] => ([], l)
  | op :: ops =>
    ((step cap l op).1 :: (run cap (step cap l op).2 ops).1, (run cap (step cap l op).2 ops).2)

/-- The ordering that a model list stands for. -/
def toOrdering (l : List (String × GoAny)) : List ElemValue :=
  l.map (fun p => .item ⟨p.1, p.2⟩)

end SpecModel

/-- The key that a call touches, given what it returned: `Add k _` touches
`k`, and so does a `Get k` that finds `k`; `Peek`, `Remove`, `Len`, `Clear` and
a `Get` that misses touch nothing. -/
def touchedBy : Op → Res → Option String
  | .add k _, _ => some k
  | .get k, .value _ true => some k
  | _, _ => none

/-- Time of the latest touch of every key after the calls `ops` run from state
`c`: the calls are numbered `now + 1`, `now + 2`, ... and `st` gives the latest
touches up to time `now` (0 for a key never touched). -/
def lastTouch (c : LRU) (now : Nat) (st : String → Nat) : List Op → String → Nat
  | [] => st
  | op :: ops =>
    match step c op with
    | none => st
    | some (r, c1) =>
      lastTouch c1 (now + 1)
        (match touchedBy op r with
          | some k => Function.update st k (now + 1)
          | none => st)
        ops

/-- Time of the latest touch of every key when `ops` run on `NewLRU n`; the
first call has time 1. -/
def touchTimes (n : Int) (ops : List Op) : String → Nat :=
  lastTouch (LRU.NewLRU n) 0 (fun _ => 0) ops

/-- Time of the latest touch of the key of an element value. -/
def stampOf (st : String → Nat) : ElemValue → Nat
  | .item it => st it.Key
  | _ => 0

/-! ## Lemmas on the map model -/

theorem GoMap.get_delete (m : List (String × Nat)) (k k1 : String) :
    GoMap.get (GoMap.delete m k) k1 = if k1 = k then none else GoMap.get m k1 := by
  induction m with
  | nil => simp [GoMap.get, GoMap.delete]
  | cons p m ih =>
    obtain ⟨a, b⟩ := p
    simp only [GoMap.get, GoMap.delete] at ih ⊢
    by_cases hak : a = k
    · subst hak
      simp only [List.filter_cons, ne_eq, not_true_eq_false, decide_False, Bool.false_eq_true,
        if_false, ih, List.lookup_cons]
      by_cases h1 : k1 = a
      · simp [h1]
      · have hb : (k1 == a) = false := by simpa using h1
        simp [h1, hb]
    · simp only [List.filter_cons, ne_eq, hak, not_false_eq_true, decide_True, if_true,
        List.lookup_cons, ih]
      by_cases h1 : k1 = k
      · subst h1
        have hb : (k1 == a) = false := by simpa using fun h => hak h.symm
        simp [hb]
      · by_cases h2 : k1 = a
        · simp [h2, hak]
        · have hb : (k1 == a) = false := by simpa using h2
          simp [h1, hb]

theorem GoMap.get_set (m : List (String × Nat)) (k k1 : String) (e : Nat) :
    GoMap.get (GoMap.set m k e) k1 = if k1 = k then some e else GoMap.get m k1 := by
  have h := GoMap.get_delete m k k1
  simp only [GoMap.get, GoMap.set, List.lookup_cons] at h ⊢
  by_cases h1 : k1 = k
  · simp [h1]
  · have : (k1 == k) = false := by simpa using h1
    simp [this, h, h1]

theorem GoMap.keys_delete (m : List (String × Nat)) (k : String)
    (h : (m.map Prod.fst).Nodup) : ((GoMap.delete m k).map Prod.fst).Nodup := by
  unfold GoMap.delete
  exact h.sublist (List.Sublist.map _ (List.filter_sublist m))

theorem GoMap.keys_set (m : List (String × Nat)) (k : String) (e : Nat)
    (h : (m.map Prod.fst).Nodup) : ((GoMap.set m k e).map Prod.fst).Nodup := by
  unfold GoMap.set
  rw [List.map_cons, List.nodup_cons]
  refine ⟨?_, GoMap.keys_delete m k h⟩
  simp [GoMap.delete]


/-! ## Lemmas on the list model -/

theorem GoList.moveToFront_eq {q : List Nat} {e : Nat} (he : e ∈ q) :
    GoList.MoveToFront q e = e :: q.erase e := by
  unfold GoList.MoveToFront
  by_cases hh : q.head? = some e
  · cases q with
    | nil => simp at he
    | cons a t =>
      simp only [List.head?_cons, Option.some.injEq] at hh
      subst hh
      simp
  · simp [he, hh]

theorem GoList.erase_back {q : List Nat} {e : Nat} (hq : q.Nodup)
    (he : GoList.Back q = some e) : q.erase e = q.dropLast := by
  unfold GoList.Back at he
  obtain ⟨t, rfl⟩ : ∃ t, q = t ++ [e] := by
    rcases List.eq_nil_or_concat q with h | ⟨t, b, h⟩
    · subst h; simp at he
    · subst h
      simp only [List.concat_eq_append, List.getLast?_append, List.getLast?_singleton,
        Option.or, Option.some.injEq] at he
      subst he
      exact ⟨t, by simp⟩
  have hnot : e ∉ t := by
    intro hm
    have := List.nodup_append.1 hq
    exact this.2.2 hm (by simp)
  rw [List.erase_append_right _ hnot]
  simp

theorem keyIs_item (k : String) (it : Item) : keyIs k (.item it) = true ↔ it.Key = k := by
  simp [keyIs]

theorem keyIs_elim {k : String} {x : ElemValue} (h : keyIs k x = true) :
    ∃ v, x = .item ⟨k, v⟩ := by
  cases x with
  | other => simp [keyIs] at h
  | nilItem => simp [keyIs] at h
  | item it =>
    obtain ⟨a, b⟩ := it
    simp only [keyIs, beq_iff_eq] at h
    subst h
    exact ⟨b, rfl⟩


/-! ## The invariant: consequences -/

theorem Inv.elem_of_get {c : LRU} (hc : Inv c) {k : String} {h : Nat}
    (hg : GoMap.get c.items k = some h) : ∃ v, c.elems h = .item ⟨k, v⟩ := by
  obtain ⟨_, it, hit, hk⟩ := hc.items_queue k h hg
  obtain ⟨a, b⟩ := it
  simp only at hk
  subst hk
  exact ⟨b, hit⟩

theorem Inv.keyIs_iff {c : LRU} (hc : Inv c) {k : String} {h h1 : Nat}
    (hg : GoMap.get c.items k = some h) (h1q : h1 ∈ c.queue) :
    keyIs k (c.elems h1) = true ↔ h1 = h := by
  obtain ⟨it, hit, hget⟩ := hc.queue_items h1 h1q
  constructor
  · intro hk
    rw [hit, keyIs_item] at hk
    rw [hk, hg] at hget
    exact (Option.some.inj hget).symm
  · intro he
    subst he
    obtain ⟨v, hv⟩ := hc.elem_of_get hg
    rw [hv]
    simp [keyIs]

theorem Inv.keyIs_false {c : LRU} (hc : Inv c) {k : String}
    (hg : GoMap.get c.items k = none) {h1 : Nat} (h1q : h1 ∈ c.queue) :
    keyIs k (c.elems h1) = false := by
  obtain ⟨it, hit, hget⟩ := hc.queue_items h1 h1q
  rw [hit]
  by_contra hne
  have hk : it.Key = k := by simpa [keyIs] using hne
  rw [hk, hg] at hget
  exact Option.noConfusion hget

theorem Inv.find_hit {c : LRU} (hc : Inv c) {k : String} {h : Nat}
    (hg : GoMap.get c.items k = some h) :
    (ordering c).find? (keyIs k) = some (c.elems h) := by
  have hq := (hc.items_queue k h hg).1
  have key : ∀ q : List Nat, (∀ x ∈ q, x ∈ c.queue) → h ∈ q →
      (q.map c.elems).find? (keyIs k) = some (c.elems h) := by
    intro q
    induction q with
    | nil => intro _ hm; simp at hm
    | cons a t ih =>
      intro hsub hm
      by_cases ha : a = h
      · subst ha
        have := (hc.keyIs_iff hg hq).2 rfl
        simp [List.find?_cons, this]
      · have hf : keyIs k (c.elems a) = false := by
          by_contra hne
          exact ha ((hc.keyIs_iff hg (hsub a (by simp))).1 (by simpa using hne))
        have hm1 : h ∈ t := by
          rcases List.mem_cons.1 hm with e | e
          · exact absurd e.symm ha
          · exact e
        simp only [List.map_cons, List.find?_cons, hf]
        exact ih (fun x hx => hsub x (List.mem_cons_of_mem _ hx)) hm1
  exact key c.queue (fun _ hx => hx) hq

theorem Inv.find_miss {c : LRU} (hc : Inv c) {k : String}
    (hg : GoMap.get c.items k = none) : (ordering c).find? (keyIs k) = none := by
  rw [List.find?_eq_none]
  intro x hx
  obtain ⟨h1, h1q, rfl⟩ := List.mem_map.1 hx
  simp [hc.keyIs_false hg h1q]

theorem Inv.without_hit {c : LRU} (hc : Inv c) {k : String} {h : Nat}
    (hg : GoMap.get c.items k = some h) :
    (c.queue.erase h).map c.elems = without k (ordering c) := by
  rw [hc.nodup.erase_eq_filter]
  unfold without ordering
  rw [List.filter_map]
  congr 1
  apply List.filter_congr
  intro x hx
  by_cases hxh : x = h
  · have := (hc.keyIs_iff hg hx).2 hxh
    subst hxh
    simp [this]
  · have hf : keyIs k (c.elems x) = false := by
      by_contra hne
      exact hxh ((hc.keyIs_iff hg hx).1 (by simpa using hne))
    simp [hxh, hf]

theorem Inv.without_miss {c : LRU} (hc : Inv c) {k : String}
    (hg : GoMap.get c.items k = none) : without k (ordering c) = ordering c := by
  unfold without
  rw [List.filter_eq_self]
  intro x hx
  obtain ⟨h1, h1q, rfl⟩ := List.mem_map.1 hx
  simp [hc.keyIs_false hg h1q]


/-! ## The invariant: preservation by the elementary state changes -/

theorem Inv.newLRU (n : Int) : Inv (LRU.NewLRU n) := by
  refine ⟨?_, ?_, ?_, ?_, ?_, ?_, ?_⟩
  · show 1 ≤ (if n ≤ 0 then 1 else n)
    split <;> omega
  · show ((0 : Nat) : Int) ≤ (if n ≤ 0 then 1 else n)
    split <;> omega
  · exact List.nodup_nil
  · intro h hh; cases hh
  · exact List.nodup_nil
  · intro h hh; cases hh
  · intro k h hg; cases hg

theorem Inv.clear {c : LRU} (hc : Inv c) : Inv (LRU.Clear c) := by
  refine ⟨hc.cap_pos, ?_, List.nodup_nil, ?_, List.nodup_nil, ?_, ?_⟩
  · show ((0 : Nat) : Int) ≤ c.capacity
    have := hc.cap_pos
    omega
  · intro h hh; cases hh
  · intro h hh; cases hh
  · intro k h hg; cases hg

theorem Inv.reorder {c : LRU} (hc : Inv c) {q : List Nat} (hq : q.Perm c.queue) :
    Inv { c with queue := q } := by
  refine ⟨hc.cap_pos, ?_, ?_, ?_, hc.keys_nodup, ?_, ?_⟩
  · show (q.length : Int) ≤ c.capacity
    rw [hq.length_eq]; exact hc.len_le
  · exact hq.nodup_iff.2 hc.nodup
  · intro h hh; exact hc.lt_fresh h (hq.mem_iff.1 hh)
  · intro h hh; exact hc.queue_items h (hq.mem_iff.1 hh)
  · intro k h hg
    obtain ⟨h1, h2⟩ := hc.items_queue k h hg
    exact ⟨hq.mem_iff.2 h1, h2⟩

theorem Inv.setValue {c : LRU} (hc : Inv c) {k : String} {h : Nat}
    (hg : GoMap.get c.items k = some h) (v : GoAny) :
    Inv { c with elems := Function.update c.elems h (.item ⟨k, v⟩) } := by
  refine ⟨hc.cap_pos, hc.len_le, hc.nodup, hc.lt_fresh, hc.keys_nodup, ?_, ?_⟩
  · intro h1 h1q
    show ∃ it, Function.update c.elems h (.item ⟨k, v⟩) h1 = .item it ∧
      GoMap.get c.items it.Key = some h1
    by_cases he : h1 = h
    · subst he
      exact ⟨⟨k, v⟩, by simp, hg⟩
    · rw [Function.update_noteq he]
      exact hc.queue_items h1 h1q
  · intro k1 h1 hg1
    obtain ⟨hq1, it, hit, hk⟩ := hc.items_queue k1 h1 hg1
    refine ⟨hq1, ?_⟩
    show ∃ it, Function.update c.elems h (.item ⟨k, v⟩) h1 = .item it ∧ it.Key = k1
    by_cases he : h1 = h
    · subst he
      obtain ⟨w, hw⟩ := hc.elem_of_get hg
      rw [hit] at hw
      have hkk : k1 = k := by
        rw [← hk]
        injection hw with hw
        rw [hw]
      exact ⟨⟨k, v⟩, by simp, hkk.symm⟩
    · rw [Function.update_noteq he]
      exact ⟨it, hit, hk⟩

theorem Inv.delete {c : LRU} (hc : Inv c) {k : String} {h : Nat}
    (hg : GoMap.get c.items k = some h) :
    Inv { c with queue := c.queue.erase h, items := GoMap.delete c.items k } := by
  refine ⟨hc.cap_pos, ?_, hc.nodup.erase h, ?_, GoMap.keys_delete _ _ hc.keys_nodup, ?_, ?_⟩
  · show ((c.queue.erase h).length : Int) ≤ c.capacity
    have h1 := List.length_erase_le h c.queue
    have h2 := hc.len_le
    omega
  · intro h1 hh
    exact hc.lt_fresh h1 (List.mem_of_mem_erase hh)
  · intro h1 hh
    have hne : h1 ≠ h := (hc.nodup.mem_erase_iff.1 hh).1
    have h1q : h1 ∈ c.queue := List.mem_of_mem_erase hh
    obtain ⟨it, hit, hget⟩ := hc.queue_items h1 h1q
    refine ⟨it, hit, ?_⟩
    show GoMap.get (GoMap.delete c.items k) it.Key = some h1
    rw [GoMap.get_delete]
    have hkk : it.Key ≠ k := by
      intro e
      rw [e, hg] at hget
      exact hne (Option.some.inj hget).symm
    simp [hkk, hget]
  · intro k1 h1 hraw
    have hg1 : GoMap.get (GoMap.delete c.items k) k1 = some h1 := hraw
    rw [GoMap.get_delete] at hg1
    by_cases hkk : k1 = k
    · simp [hkk] at hg1
    · simp only [hkk, if_false] at hg1
      obtain ⟨hq1, it, hit, hk⟩ := hc.items_queue k1 h1 hg1
      refine ⟨?_, it, hit, hk⟩
      show h1 ∈ c.queue.erase h
      refine hc.nodup.mem_erase_iff.2 ⟨?_, hq1⟩
      intro e
      subst e
      obtain ⟨w1, hw1⟩ := hc.elem_of_get hg1
      obtain ⟨w2, hw2⟩ := hc.elem_of_get hg
      rw [hw1] at hw2
      injection hw2 with hw2
      injection hw2 with hw3 _
      exact hkk hw3

theorem Inv.push {c : LRU} (hc : Inv c) {k : String} (hg : GoMap.get c.items k = none)
    (hlen : (c.queue.length : Int) < c.capacity) (v : GoAny) :
    Inv { c with
      elems := Function.update c.elems c.fresh (.item ⟨k, v⟩)
      fresh := c.fresh + 1
      queue := c.fresh :: c.queue
      items := GoMap.set c.items k c.fresh } := by
  have hfresh : c.fresh ∉ c.queue := fun hm => Nat.lt_irrefl _ (hc.lt_fresh _ hm)
  refine ⟨hc.cap_pos, ?_, ?_, ?_, GoMap.keys_set _ _ _ hc.keys_nodup, ?_, ?_⟩
  · show (((c.fresh :: c.queue).length : Nat) : Int) ≤ c.capacity
    rw [List.length_cons]
    push_cast
    omega
  · exact List.nodup_cons.2 ⟨hfresh, hc.nodup⟩
  · intro h1 hh
    show h1 < c.fresh + 1
    rcases List.mem_cons.1 hh with e | e
    · omega
    · have := hc.lt_fresh h1 e
      omega
  · intro h1 hh
    show ∃ it, Function.update c.elems c.fresh (.item ⟨k, v⟩) h1 = .item it ∧
      GoMap.get (GoMap.set c.items k c.fresh) it.Key = some h1
    rcases List.mem_cons.1 hh with e | e
    · subst e
      exact ⟨⟨k, v⟩, by simp, by simp [GoMap.get_set]⟩
    · have hne : h1 ≠ c.fresh := fun e1 => hfresh (e1 ▸ e)
      obtain ⟨it, hit, hget⟩ := hc.queue_items h1 e
      refine ⟨it, by rw [Function.update_noteq hne]; exact hit, ?_⟩
      rw [GoMap.get_set]
      have hkk : it.Key ≠ k := by
        intro e2
        rw [e2, hg] at hget
        exact Option.noConfusion hget
      simp [hkk, hget]
  · intro k1 h1 hraw
    have hg1 : GoMap.get (GoMap.set c.items k c.fresh) k1 = some h1 := hraw
    rw [GoMap.get_set] at hg1
    show h1 ∈ c.fresh :: c.queue ∧
      ∃ it, Function.update c.elems c.fresh (.item ⟨k, v⟩) h1 = .item it ∧ it.Key = k1
    by_cases hkk : k1 = k
    · simp only [hkk, if_true, Option.some.injEq] at hg1
      subst hg1
      exact ⟨by simp, ⟨k, v⟩, by simp, hkk.symm⟩
    · simp only [hkk, if_false] at hg1
      obtain ⟨hq1, it, hit, hk⟩ := hc.items_queue k1 h1 hg1
      have hne : h1 ≠ c.fresh := fun e1 => hfresh (e1 ▸ hq1)
      exact ⟨List.mem_cons_of_mem _ hq1, it, by rw [Function.update_noteq hne]; exact hit, hk⟩


/-! ## What each operation does to a well-formed state -/

theorem ordering_length (c : LRU) : ((ordering c).length : Int) = LRU.Len c := by
  simp [ordering, LRU.Len, GoList.Len]

theorem LRU.Add_hit {c : LRU} (hc : Inv c) {k : String} {h : Nat}
    (hg : GoMap.get c.items k = some h) (v : GoAny) :
    ∃ c1, LRU.Add c k v = some c1 ∧ Inv c1 ∧ c1.capacity = c.capacity ∧ c1.items = c.items ∧
      c1.queue.Perm c.queue ∧
      ordering c1 = .item ⟨k, v⟩ :: without k (ordering c) := by
  obtain ⟨w, hw⟩ := hc.elem_of_get hg
  have hq : h ∈ c.queue := (hc.items_queue k h hg).1
  refine ⟨{ c with elems := Function.update c.elems h (.item ⟨k, v⟩), queue := h :: c.queue.erase h },
    ?_, ?_, rfl, rfl, (List.perm_cons_erase hq).symm, ?_⟩
  · simp only [LRU.Add, hg, hw, GoList.moveToFront_eq hq]
  · exact (hc.setValue hg v).reorder (List.perm_cons_erase hq).symm
  · show (h :: c.queue.erase h).map (Function.update c.elems h (.item ⟨k, v⟩)) = _
    rw [List.map_cons, Function.update_same, ← hc.without_hit hg]
    congr 1
    apply List.map_congr_left
    intro x hx
    exact Function.update_noteq (hc.nodup.mem_erase_iff.1 hx).1 _ _

theorem LRU.insert_spec {c : LRU} (hc : Inv c) (k : String) (v : GoAny) :
    ordering { c with
      elems := Function.update c.elems c.fresh (.item ⟨k, v⟩)
      fresh := c.fresh + 1
      queue := c.fresh :: c.queue
      items := GoMap.set c.items k c.fresh } = .item ⟨k, v⟩ :: ordering c := by
  have hfresh : c.fresh ∉ c.queue := fun hm => Nat.lt_irrefl _ (hc.lt_fresh _ hm)
  show (c.fresh :: c.queue).map (Function.update c.elems c.fresh (.item ⟨k, v⟩)) = _
  rw [List.map_cons, Function.update_same]
  congr 1
  apply List.map_congr_left
  intro x hx
  have hne : x ≠ c.fresh := fun e => hfresh (e ▸ hx)
  exact Function.update_noteq hne _ _

theorem LRU.Add_room {c : LRU} (hc : Inv c) {k : String} (hg : GoMap.get c.items k = none)
    (hlen : LRU.Len c < c.capacity) (v : GoAny) :
    ∃ c1, LRU.Add c k v = some c1 ∧ Inv c1 ∧ c1.capacity = c.capacity ∧
      ordering c1 = .item ⟨k, v⟩ :: ordering c := by
  have hlen1 : (c.queue.length : Int) < c.capacity := hlen
  have hnot : ¬ GoList.Len c.queue ≥ c.capacity := not_le.2 hlen
  refine ⟨_, ?_, hc.push hg hlen1 v, rfl, LRU.insert_spec hc k v⟩
  simp only [LRU.Add, hg, hnot, if_false]

theorem LRU.evictOne_full {c : LRU} (hc : Inv c) (hlen : LRU.Len c ≥ c.capacity) :
    Inv (LRU.evictOne c) ∧ (LRU.evictOne c).capacity = c.capacity ∧
      (LRU.evictOne c).fresh = c.fresh ∧ (LRU.evictOne c).elems = c.elems ∧
      ordering (LRU.evictOne c) = (ordering c).dropLast ∧
      (((LRU.evictOne c).queue.length : Int) < c.capacity) ∧
      ∀ k, GoMap.get c.items k = none → GoMap.get (LRU.evictOne c).items k = none := by
  have hlen1 : (c.queue.length : Int) ≥ c.capacity := hlen
  have hpos := hc.cap_pos
  have hle := hc.len_le
  have hne : c.queue ≠ [] := by
    intro e
    rw [e] at hlen1
    simp at hlen1
    omega
  obtain ⟨e, he⟩ : ∃ e, GoList.Back c.queue = some e :=
    ⟨c.queue.getLast hne, List.getLast?_eq_getLast _ hne⟩
  have heq : e ∈ c.queue := List.mem_of_getLast?_eq_some he
  obtain ⟨it, hit, hget⟩ := hc.queue_items e heq
  have hev : LRU.evictOne c =
      { c with queue := c.queue.erase e, items := GoMap.delete c.items it.Key } := by
    simp only [LRU.evictOne, he, LRU.deleteElement, hit, GoList.Remove, heq, if_true]
  rw [hev]
  refine ⟨hc.delete hget, rfl, rfl, rfl, ?_, ?_, ?_⟩
  · show (c.queue.erase e).map c.elems = (c.queue.map c.elems).dropLast
    rw [GoList.erase_back hc.nodup he, List.map_dropLast]
  · show ((c.queue.erase e).length : Int) < c.capacity
    rw [List.length_erase_of_mem heq]
    have : 0 < c.queue.length := List.length_pos.2 hne
    omega
  · intro k hk
    show GoMap.get (GoMap.delete c.items it.Key) k = none
    rw [GoMap.get_delete]
    split
    · rfl
    · exact hk

theorem LRU.Add_full {c : LRU} (hc : Inv c) {k : String} (hg : GoMap.get c.items k = none)
    (hlen : LRU.Len c ≥ c.capacity) (v : GoAny) :
    ∃ c1, LRU.Add c k v = some c1 ∧ Inv c1 ∧ c1.capacity = c.capacity ∧
      ordering c1 = .item ⟨k, v⟩ :: (ordering c).dropLast := by
  obtain ⟨hinv, hcap, _, _, hord, hl, hmiss⟩ := LRU.evictOne_full hc hlen
  have hyes : GoList.Len c.queue ≥ c.capacity := hlen
  have hl1 : (((LRU.evictOne c).queue.length : Int) < (LRU.evictOne c).capacity) := by
    rw [hcap]; exact hl
  refine ⟨_, ?_, hinv.push (hmiss k hg) hl1 v, hcap, ?_⟩
  · simp only [LRU.Add, hg, hyes, if_true]
  · rw [LRU.insert_spec hinv k v, hord]

theorem LRU.Get_hit {c : LRU} (hc : Inv c) {k : String} {h : Nat}
    (hg : GoMap.get c.items k = some h) :
    ∃ v c1, c.elems h = .item ⟨k, v⟩ ∧ LRU.Get c k = some ((v, true), c1) ∧ Inv c1 ∧
      c1.capacity = c.capacity ∧ c1.items = c.items ∧ c1.elems = c.elems ∧
      c1.queue.Perm c.queue ∧
      ordering c1 = .item ⟨k, v⟩ :: without k (ordering c) := by
  obtain ⟨w, hw⟩ := hc.elem_of_get hg
  have hq : h ∈ c.queue := (hc.items_queue k h hg).1
  refine ⟨w, { c with queue := h :: c.queue.erase h }, hw, ?_,
    hc.reorder (List.perm_cons_erase hq).symm, rfl, rfl, rfl, (List.perm_cons_erase hq).symm, ?_⟩
  · simp only [LRU.Get, hg, hw, GoList.moveToFront_eq hq]
  · show (h :: c.queue.erase h).map c.elems = _
    rw [List.map_cons, hw, hc.without_hit hg]

theorem LRU.Get_miss {c : LRU} {k : String} (hg : GoMap.get c.items k = none) :
    LRU.Get c k = some ((.nil, false), c) := by
  simp only [LRU.Get, hg]

theorem LRU.Peek_hit {c : LRU} (hc : Inv c) {k : String} {h : Nat}
    (hg : GoMap.get c.items k = some h) :
    ∃ v, c.elems h = .item ⟨k, v⟩ ∧ LRU.Peek c k = some ((v, true), c) := by
  obtain ⟨w, hw⟩ := hc.elem_of_get hg
  exact ⟨w, hw, by simp only [LRU.Peek, hg, hw]⟩

theorem LRU.Peek_miss {c : LRU} {k : String} (hg : GoMap.get c.items k = none) :
    LRU.Peek c k = some ((.nil, false), c) := by
  simp only [LRU.Peek, hg]

theorem LRU.Remove_hit {c : LRU} (hc : Inv c) {k : String} {h : Nat}
    (hg : GoMap.get c.items k = some h) :
    ∃ c1, LRU.Remove c k = (true, c1) ∧ Inv c1 ∧ c1.capacity = c.capacity ∧
      c1.items = GoMap.delete c.items k ∧ c1.queue = c.queue.erase h ∧
      ordering c1 = without k (ordering c) := by
  obtain ⟨w, hw⟩ := hc.elem_of_get hg
  have hq : h ∈ c.queue := (hc.items_queue k h hg).1
  refine ⟨{ c with queue := c.queue.erase h, items := GoMap.delete c.items k }, ?_,
    hc.delete hg, rfl, rfl, rfl, hc.without_hit hg⟩
  simp only [LRU.Remove, hg, LRU.deleteElement, hw, GoList.Remove, hq, if_true]

theorem LRU.Remove_miss {c : LRU} {k : String} (hg : GoMap.get c.items k = none) :
    LRU.Remove c k = (false, c) := by
  simp only [LRU.Remove, hg]


/-! ## Every call succeeds on a well-formed state and is determined by the ordering -/

theorem Inv.any_hit {c : LRU} (hc : Inv c) {k : String} {h : Nat}
    (hg : GoMap.get c.items k = some h) : (ordering c).any (keyIs k) = true := by
  rw [List.any_eq_true]
  have hq : h ∈ c.queue := (hc.items_queue k h hg).1
  exact ⟨c.elems h, List.mem_map_of_mem _ hq, (hc.keyIs_iff hg hq).2 rfl⟩

theorem Inv.any_miss {c : LRU} (hc : Inv c) {k : String}
    (hg : GoMap.get c.items k = none) : (ordering c).any (keyIs k) = false := by
  rw [List.any_eq_false]
  intro x hx
  obtain ⟨h1, h1q, rfl⟩ := List.mem_map.1 hx
  simp [hc.keyIs_false hg h1q]

theorem step_spec {c : LRU} (hc : Inv c) (op : Op) :
    ∃ r c1, step c op = some (r, c1) ∧ Inv c1 ∧ c1.capacity = c.capacity ∧
      absStep c.capacity (ordering c) op = (r, ordering c1) := by
  cases op with
  | add k v =>
    cases hg : GoMap.get c.items k with
    | some h =>
      obtain ⟨c1, h1, h2, h3, _, _, h5⟩ := LRU.Add_hit hc hg v
      refine ⟨.unit, c1, by simp [step, h1], h2, h3, ?_⟩
      simp [absStep, hc.any_hit hg, h5]
    | none =>
      by_cases hlen : LRU.Len c ≥ c.capacity
      · obtain ⟨c1, h1, h2, h3, h5⟩ := LRU.Add_full hc hg hlen v
        refine ⟨.unit, c1, by simp [step, h1], h2, h3, ?_⟩
        have hl : c.capacity ≤ ((ordering c).length : Int) := by
          rw [ordering_length]; exact hlen
        simp [absStep, hc.any_miss hg, h5, hl]
      · obtain ⟨c1, h1, h2, h3, h5⟩ := LRU.Add_room hc hg (not_le.1 hlen) v
        refine ⟨.unit, c1, by simp [step, h1], h2, h3, ?_⟩
        have hl : ¬ c.capacity ≤ ((ordering c).length : Int) := by
          rw [ordering_length]; exact hlen
        simp [absStep, hc.any_miss hg, h5, hl]
  | get k =>
    cases hg : GoMap.get c.items k with
    | some h =>
      obtain ⟨v, c1, h0, h1, h2, h3, _, _, _, h5⟩ := LRU.Get_hit hc hg
      refine ⟨.value v true, c1, by simp [step, h1], h2, h3, ?_⟩
      simp [absStep, hc.find_hit hg, h0, h5]
    | none =>
      refine ⟨.value .nil false, c, by simp [step, LRU.Get_miss hg], hc, rfl, ?_⟩
      simp [absStep, hc.find_miss hg]
  | peek k =>
    cases hg : GoMap.get c.items k with
    | some h =>
      obtain ⟨v, h0, h1⟩ := LRU.Peek_hit hc hg
      refine ⟨.value v true, c, by simp [step, h1], hc, rfl, ?_⟩
      simp [absStep, hc.find_hit hg, h0]
    | none =>
      refine ⟨.value .nil false, c, by simp [step, LRU.Peek_miss hg], hc, rfl, ?_⟩
      simp [absStep, hc.find_miss hg]
  | remove k =>
    cases hg : GoMap.get c.items k with
    | some h =>
      obtain ⟨c1, h1, h2, h3, _, _, h5⟩ := LRU.Remove_hit hc hg
      refine ⟨.removed true, c1, by simp [step, h1], h2, h3, ?_⟩
      simp [absStep, hc.any_hit hg, h5]
    | none =>
      refine ⟨.removed false, c, by simp [step, LRU.Remove_miss hg], hc, rfl, ?_⟩
      simp [absStep, hc.any_miss hg, hc.without_miss hg]
  | len =>
    refine ⟨.count (LRU.Len c), c, rfl, hc, rfl, ?_⟩
    simp [absStep, ordering_length]
  | clear =>
    exact ⟨.unit, LRU.Clear c, rfl, hc.clear, rfl, rfl⟩

theorem Reachable.inv {c : LRU} (h : Reachable c) : Inv c := by
  induction h with
  | init n => exact Inv.newLRU n
  | step op r _ hs ih =>
    obtain ⟨r1, c2, h1, h2, _, _⟩ := step_spec ih op
    rw [h1] at hs
    injection hs with hs
    injection hs with _ hs
    exact hs ▸ h2

theorem run_spec {c : LRU} (hc : Inv c) (ops : List Op) :
    ∃ rs c1, run c ops = some (rs, c1) ∧ Inv c1 ∧ c1.capacity = c.capacity ∧
      (Reachable c → Reachable c1) ∧
      absRun c.capacity (ordering c) ops = (rs, ordering c1) := by
  induction ops generalizing c with
  | nil => exact ⟨[], c, rfl, hc, rfl, id, rfl⟩
  | cons op ops ih =>
    obtain ⟨r, c1, h1, h2, h3, h4⟩ := step_spec hc op
    obtain ⟨rs, c2, g1, g2, g3, g4, g5⟩ := ih h2
    refine ⟨r :: rs, c2, ?_, g2, g3.trans h3, fun hr => g4 (Reachable.step op r hr h1), ?_⟩
    · simp [run, h1, g1]
    · rw [h3] at g5
      simp [absRun, h4, g5]


/-! ## Index and ordering tell the same story -/

theorem Inv.holds_iff {c : LRU} (hc : Inv c) (k : String) (v : GoAny) :
    c.holds k v ↔ ElemValue.item ⟨k, v⟩ ∈ ordering c := by
  unfold LRU.holds
  constructor
  · intro hh
    cases hg : GoMap.get c.items k with
    | none => rw [hg] at hh; cases hh
    | some h =>
      rw [hg] at hh
      have hq : h ∈ c.queue := (hc.items_queue k h hg).1
      have he : c.elems h = .item ⟨k, v⟩ := Option.some.inj hh
      exact he ▸ List.mem_map_of_mem _ hq
  · intro hm
    obtain ⟨h, hq, he⟩ := List.mem_map.1 hm
    obtain ⟨it, hit, hget⟩ := hc.queue_items h hq
    rw [he] at hit
    injection hit with hit
    subst hit
    simp only at hget
    rw [hget]
    simp [he]

theorem Inv.lacks_iff {c : LRU} (hc : Inv c) (k : String) :
    c.lacks k ↔ ∀ x ∈ ordering c, keyIs k x = false := by
  unfold LRU.lacks
  constructor
  · intro hg x hx
    obtain ⟨h1, h1q, rfl⟩ := List.mem_map.1 hx
    exact hc.keyIs_false hg h1q
  · intro hall
    cases hg : GoMap.get c.items k with
    | none => rfl
    | some h =>
      have hq : h ∈ c.queue := (hc.items_queue k h hg).1
      have h1 := (hc.keyIs_iff hg hq).2 rfl
      rw [hall _ (List.mem_map_of_mem _ hq)] at h1
      cases h1

theorem Inv.holds_or_lacks {c : LRU} (hc : Inv c) (k : String) :
    c.lacks k ∨ ∃ v, c.holds k v := by
  unfold LRU.lacks LRU.holds
  cases hg : GoMap.get c.items k with
  | none => exact Or.inl rfl
  | some h =>
    obtain ⟨v, hv⟩ := hc.elem_of_get hg
    exact Or.inr ⟨v, by simp [hv]⟩

theorem LRU.holds_get {c : LRU} {k : String} {v : GoAny} (hh : c.holds k v) :
    ∃ h, GoMap.get c.items k = some h ∧ c.elems h = .item ⟨k, v⟩ := by
  unfold LRU.holds at hh
  cases hg : GoMap.get c.items k with
  | none => rw [hg] at hh; cases hh
  | some h => rw [hg] at hh; exact ⟨h, rfl, Option.some.inj hh⟩

theorem LRU.Peek_of_holds {c : LRU} {k : String} {v : GoAny} (hh : c.holds k v) :
    LRU.Peek c k = some ((v, true), c) := by
  obtain ⟨h, hg, he⟩ := LRU.holds_get hh
  simp only [LRU.Peek, hg, he]

/-- Two entries of the ordering never carry the same key. -/
theorem Inv.key_unique {c : LRU} (hc : Inv c) {k : String} {v w : GoAny}
    (hv : ElemValue.item ⟨k, v⟩ ∈ ordering c) (hw : ElemValue.item ⟨k, w⟩ ∈ ordering c) :
    v = w := by
  have h1 := (hc.holds_iff k v).2 hv
  have h2 := (hc.holds_iff k w).2 hw
  unfold LRU.holds at h1 h2
  rw [h1] at h2
  injection h2 with h2
  injection h2 with h2
  injection h2

theorem mem_without {k : String} {l : List ElemValue} {x : ElemValue} :
    x ∈ without k l ↔ x ∈ l ∧ keyIs k x = false := by
  simp [without]

theorem stateAfter_reachable (n : Int) (ops : List Op) : Reachable (stateAfter n ops) := by
  obtain ⟨rs, c1, h1, _, _, h4, _⟩ := run_spec (Inv.newLRU n) ops
  unfold stateAfter
  rw [h1]
  exact h4 (Reachable.init n)


theorem Inv.ordering_nodup {c : LRU} (hc : Inv c) : (ordering c).Nodup := by
  unfold ordering
  refine List.Nodup.map_on ?_ hc.nodup
  intro x hx y hy hxy
  obtain ⟨it, hit, hget⟩ := hc.queue_items x hx
  obtain ⟨it2, hit2, hget2⟩ := hc.queue_items y hy
  rw [hit, hit2] at hxy
  injection hxy with hxy
  rw [hxy, hget2] at hget
  exact (Option.some.inj hget).symm

theorem Inv.without_eq_erase {c : LRU} (hc : Inv c) {k : String} {v : GoAny}
    (hh : c.holds k v) : without k (ordering c) = (ordering c).erase (.item ⟨k, v⟩) := by
  have hm := (hc.holds_iff k v).1 hh
  rw [hc.ordering_nodup.erase_eq_filter]
  unfold without
  apply List.filter_congr
  intro x hx
  by_cases hx1 : keyIs k x = true
  · obtain ⟨w, hw⟩ := keyIs_elim hx1
    subst hw
    have := hc.key_unique hx hm
    subst this
    simp [keyIs]
  · have hne : x ≠ .item ⟨k, v⟩ := by
      intro e
      apply hx1
      rw [e]
      simp [keyIs]
    simp [hx1, hne]

theorem Inv.len_perm {c c1 : LRU} (hp : c1.queue.Perm c.queue) : LRU.Len c1 = LRU.Len c := by
  simp [LRU.Len, GoList.Len, hp.length_eq]

theorem Inv.front_lacks {c : LRU} (hc : Inv c) {front : List ElemValue} {last : Item}
    (hord : ordering c = front ++ [.item last]) :
    ∀ x ∈ front, keyIs last.Key x = false := by
  intro x hx
  by_contra hne
  obtain ⟨w, hw⟩ := keyIs_elim (by simpa using hne : keyIs last.Key x = true)
  subst hw
  have hnd := hc.ordering_nodup
  have h1 : ElemValue.item ⟨last.Key, w⟩ ∈ ordering c := by
    rw [hord]; exact List.mem_append_left _ hx
  have h2 : ElemValue.item ⟨last.Key, last.Value⟩ ∈ ordering c := by
    rw [hord]; exact List.mem_append_right _ (List.mem_singleton.2 rfl)
  have hwl := hc.key_unique h1 h2
  subst hwl
  rw [hord] at hnd
  exact (List.nodup_append.1 hnd).2.2 hx (List.mem_singleton.2 rfl)

theorem run_peeks {c : LRU} {k : String} {v : GoAny} {b : Bool}
    (hp : LRU.Peek c k = some ((v, b), c)) (m : Nat) (ops : List Op) :
    run c (List.replicate m (.peek k) ++ ops) =
      (run c ops).map (fun p => (List.replicate m (.value v b) ++ p.1, p.2)) := by
  induction m with
  | zero =>
    cases hrun : run c ops with
    | none => simp [hrun]
    | some p => simp [hrun]
  | succ m ih =>
    rw [List.replicate_succ, List.cons_append]
    have hs : step c (.peek k) = some (.value v b, c) := by simp [step, hp]
    rw [run, hs]
    simp only
    rw [ih]
    cases hrun : run c ops with
    | none => simp
    | some p => simp [List.replicate_succ]

/-! ## The eviction scenario on orderings -/

theorem item_injective : Function.Injective ElemValue.item := by
  intro a b h
  injection h

theorem key_eq_of_nodup {D : List Item} (hD : (D.map Item.Key).Nodup) {a b : Item}
    (ha : a ∈ D) (hb : b ∈ D) (hk : a.Key = b.Key) : a = b :=
  List.inj_on_of_nodup_map hD ha hb hk

theorem touch_perm {D : List Item} (hD : (D.map Item.Key).Nodup) {l : List ElemValue}
    (hl : l.Perm (D.map .item)) {k : String} {it : Item}
    (hf : l.find? (keyIs k) = some (.item it)) :
    (ElemValue.item it :: without k l).Perm l := by
  have hnd : l.Nodup :=
    hl.nodup_iff.2 ((List.Nodup.of_map _ hD).map item_injective)
  have hmem : ElemValue.item it ∈ l := List.mem_of_find?_eq_some hf
  have hkey : it.Key = k := (keyIs_item k it).1 (List.find?_some hf)
  have hitD : it ∈ D := by
    have := hl.mem_iff.1 hmem
    obtain ⟨a, ha, e⟩ := List.mem_map.1 this
    exact item_injective e ▸ ha
  have hw : without k l = l.erase (.item it) := by
    rw [hnd.erase_eq_filter]
    unfold without
    apply List.filter_congr
    intro x hx
    by_cases hx1 : keyIs k x = true
    · obtain ⟨w, hw⟩ := keyIs_elim hx1
      subst hw
      obtain ⟨a, ha, e⟩ := List.mem_map.1 (hl.mem_iff.1 hx)
      have hak : a.Key = it.Key := by
        rw [hkey, item_injective e]
      have := key_eq_of_nodup hD ha hitD hak
      rw [this] at e
      rw [← e]
      simp [keyIs, hkey]
    · have hne : x ≠ .item it := by
        intro e
        apply hx1
        rw [e]
        exact (keyIs_item k it).2 hkey
      simp [hx1, hne]
  rw [hw]
  exact (List.perm_cons_erase hmem).symm

theorem touch_cases (cap : Int) (l : List ElemValue) (k : String) (op : Op)
    (hop : op = .get k ∨ op = .peek k) :
    (absStep cap l op).2 = l ∨
      ∃ it, l.find? (keyIs k) = some (.item it) ∧
        (absStep cap l op).2 = .item it :: without k l := by
  rcases hop with e | e
  · subst e
    cases hf : l.find? (keyIs k) with
    | none => left; simp [absStep, hf]
    | some x =>
      cases x with
      | other => left; simp [absStep, hf]
      | nilItem => left; simp [absStep, hf]
      | item it => right; exact ⟨it, rfl, by simp [absStep, hf]⟩
  · subst e
    left
    cases hf : l.find? (keyIs k) with
    | none => simp [absStep, hf]
    | some x =>
      cases x with
      | other => simp [absStep, hf]
      | nilItem => simp [absStep, hf]
      | item it => simp [absStep, hf]

theorem touch_keeps {D : List Item} (hD : (D.map Item.Key).Nodup) (cap : Int)
    {l : List ElemValue} (hl : l.Perm (D.map .item)) (k : String) (op : Op)
    (hop : op = .get k ∨ op = .peek k) :
    ((absStep cap l op).2).Perm l ∧
      ∀ front a, l = front ++ [.item a] → a.Key ≠ k →
        ∃ front1, (absStep cap l op).2 = front1 ++ [.item a] := by
  rcases touch_cases cap l k op hop with e | ⟨it, hf, e⟩
  · rw [e]
    exact ⟨List.Perm.refl _, fun front a h _ => ⟨front, h⟩⟩
  · rw [e]
    refine ⟨touch_perm hD hl hf, ?_⟩
    intro front a h hak
    refine ⟨.item it :: without k front, ?_⟩
    have hfalse : keyIs k (.item a) = false := by
      simpa [keyIs] using hak
    rw [h]
    simp [without, List.filter_append, hfalse]

theorem absRun_settled {D : List Item} (hD : (D.map Item.Key).Nodup) (cap : Int)
    (k0 : String) (ops : List Op) :
    ∀ l : List ElemValue, addsOf ops = [] → (∀ op ∈ ops, touchFree k0 op = true) →
      l.Perm (D.map .item) → ((absRun cap l ops).2).Perm (D.map .item) := by
  induction ops with
  | nil => intro l _ _ hl; exact hl
  | cons op ops ih =>
    intro l hadds hfree hl
    have hrest : ∀ o ∈ ops, touchFree k0 o = true :=
      fun o ho => hfree o (List.mem_cons_of_mem _ ho)
    have hop := hfree op (List.mem_cons_self _ _)
    cases op with
    | add k v => simp [addsOf] at hadds
    | get k =>
      have hp := (touch_keeps hD cap hl k (.get k) (Or.inl rfl)).1
      exact ih _ (by simpa [addsOf] using hadds) hrest (hp.trans hl)
    | peek k =>
      have hp := (touch_keeps hD cap hl k (.peek k) (Or.inr rfl)).1
      exact ih _ (by simpa [addsOf] using hadds) hrest (hp.trans hl)
    | remove k => simp [touchFree] at hop
    | len => simp [touchFree] at hop
    | clear => simp [touchFree] at hop


theorem absRun_filling (a0 : Item) (rest : List Item)
    (hkeys : ((a0 :: rest).map Item.Key).Nodup) (ops : List Op) :
    ∀ (d : List Item) (l : List ElemValue), d ++ addsOf ops = rest →
      (∀ op ∈ ops, touchFree a0.Key op = true) →
      l.Perm ((a0 :: d).map .item) → (∃ front, l = front ++ [.item a0]) →
      l.length ≤ rest.length →
      ((absRun (rest.length : Int) l ops).2).Perm (rest.map .item) := by
  induction ops with
  | nil =>
    intro d l hd _ hl _ hlen
    simp only [addsOf, List.append_nil] at hd
    subst hd
    have := hl.length_eq
    simp at this
    omega
  | cons op ops ih =>
    intro d l hd hfree hl hlast hlen
    have hrest : ∀ o ∈ ops, touchFree a0.Key o = true :=
      fun o ho => hfree o (List.mem_cons_of_mem _ ho)
    have hop := hfree op (List.mem_cons_self _ _)
    have hll : l.length = d.length + 1 := by
      have := hl.length_eq
      simpa using this
    have hdk : ((a0 :: d).map Item.Key).Nodup := by
      have hsub : (a0 :: d).Sublist (a0 :: rest) := by
        rw [← hd]
        exact List.Sublist.cons₂ _ (List.sublist_append_left _ _)
      exact hkeys.sublist (hsub.map _)
    cases op with
    | add k v =>
      simp only [addsOf] at hd
      have hknew : ∀ a ∈ a0 :: d, a.Key ≠ k := by
        intro a ha e
        have hnd : (a0 :: (d ++ ⟨k, v⟩ :: addsOf ops)).map Item.Key |>.Nodup := by
          rw [hd]; exact hkeys
        have hsplit : (a0 :: (d ++ ⟨k, v⟩ :: addsOf ops)) =
            (a0 :: d) ++ (⟨k, v⟩ :: addsOf ops) := rfl
        rw [hsplit, List.map_append] at hnd
        have hdis := (List.nodup_append.1 hnd).2.2
        exact hdis (List.mem_map_of_mem _ ha) (by rw [e]; simp)
      have hany : l.any (keyIs k) = false := by
        rw [List.any_eq_false]
        intro x hx
        obtain ⟨a, ha, e⟩ := List.mem_map.1 (hl.mem_iff.1 hx)
        rw [← e]
        simpa [keyIs] using hknew a ha
      have hlenrest : rest.length = d.length + 1 + (addsOf ops).length := by
        rw [← hd]; simp; omega
      obtain ⟨front, hfront⟩ := hlast
      by_cases hfull : (l.length : Int) ≥ (rest.length : Int)
      · have hnomore : addsOf ops = [] := by
          apply List.eq_nil_of_length_eq_zero
          have : rest.length ≤ l.length := by exact_mod_cast hfull
          omega
        have hstep : (absStep (rest.length : Int) l (.add k v)).2 = .item ⟨k, v⟩ :: front := by
          simp only [absStep, hany, hfull, if_true, Bool.false_eq_true, if_false]
          rw [hfront, List.dropLast_concat]
        have hfp : front.Perm (d.map .item) := by
          have h1 : (ElemValue.item a0 :: front).Perm (.item a0 :: d.map .item) := by
            have h2 : (front ++ [ElemValue.item a0]).Perm (.item a0 :: front) :=
              List.perm_append_singleton _ _
            rw [hfront] at hl
            exact h2.symm.trans hl
          exact List.Perm.cons_inv h1
        have hnew : (ElemValue.item ⟨k, v⟩ :: front).Perm (rest.map .item) := by
          rw [← hd, hnomore, List.map_append]
          have h3 : (ElemValue.item ⟨k, v⟩ :: front).Perm (.item ⟨k, v⟩ :: d.map .item) :=
            List.Perm.cons _ hfp
          exact h3.trans (List.perm_append_singleton _ _).symm
        have hrk : (rest.map Item.Key).Nodup := by
          simp only [List.map_cons, List.nodup_cons] at hkeys
          exact hkeys.2
        show ((absRun (rest.length : Int) (absStep (rest.length : Int) l (.add k v)).2 ops).2).Perm _
        rw [hstep]
        exact absRun_settled hrk _ a0.Key ops _ hnomore hrest hnew
      · have hstep : (absStep (rest.length : Int) l (.add k v)).2 = .item ⟨k, v⟩ :: l := by
          simp only [absStep, hany, hfull, Bool.false_eq_true, if_false]
        show ((absRun (rest.length : Int) (absStep (rest.length : Int) l (.add k v)).2 ops).2).Perm _
        rw [hstep]
        have hlt : l.length < rest.length := by
          have : (l.length : Int) < (rest.length : Int) := not_le.1 hfull
          exact_mod_cast this
        refine ih (d ++ [⟨k, v⟩]) _ (by simpa using hd) hrest ?_ ?_ ?_
        · have h3 : (ElemValue.item ⟨k, v⟩ :: l).Perm
              (.item ⟨k, v⟩ :: (.item a0 :: d.map .item)) := List.Perm.cons _ hl
          refine h3.trans ?_
          simp only [List.map_cons, List.map_append, List.map_nil]
          have h4 : (ElemValue.item ⟨k, v⟩ :: d.map ElemValue.item).Perm
              (d.map ElemValue.item ++ [.item ⟨k, v⟩]) :=
            (List.perm_append_singleton _ _).symm
          exact (List.Perm.swap _ _ _).trans (List.Perm.cons _ h4)
        · exact ⟨.item ⟨k, v⟩ :: front, by rw [hfront]; rfl⟩
        · simp only [List.length_cons]
          omega
    | get k =>
      have hne : a0.Key ≠ k := by
        intro e
        simp [touchFree, e] at hop
      obtain ⟨hp, hkeep⟩ := touch_keeps hdk (rest.length : Int) hl k (.get k) (Or.inl rfl)
      obtain ⟨front, hfront⟩ := hlast
      refine ih d _ (by simpa [addsOf] using hd) hrest (hp.trans hl)
        (hkeep front a0 hfront hne) ?_
      rw [hp.length_eq]; exact hlen
    | peek k =>
      have hne : a0.Key ≠ k := by
        intro e
        simp [touchFree, e] at hop
      obtain ⟨hp, hkeep⟩ := touch_keeps hdk (rest.length : Int) hl k (.peek k) (Or.inr rfl)
      obtain ⟨front, hfront⟩ := hlast
      refine ih d _ (by simpa [addsOf] using hd) hrest (hp.trans hl)
        (hkeep front a0 hfront hne) ?_
      rw [hp.length_eq]; exact hlen
    | remove k => simp [touchFree] at hop
    | len => simp [touchFree] at hop
    | clear => simp [touchFree] at hop

theorem absRun_scenario (a0 : Item) (rest : List Item) (hpos : 1 ≤ rest.length)
    (hkeys : ((a0 :: rest).map Item.Key).Nodup) (ops : List Op) :
    addsOf ops = a0 :: rest → (∀ op ∈ ops, touchFree a0.Key op = true) →
      ((absRun (rest.length : Int) [] ops).2).Perm (rest.map .item) := by
  induction ops with
  | nil => intro h; simp [addsOf] at h
  | cons op ops ih =>
    intro hadds hfree
    have hrest : ∀ o ∈ ops, touchFree a0.Key o = true :=
      fun o ho => hfree o (List.mem_cons_of_mem _ ho)
    have hop := hfree op (List.mem_cons_self _ _)
    cases op with
    | add k v =>
      simp only [addsOf, List.cons.injEq] at hadds
      obtain ⟨ha, hr⟩ := hadds
      have hnot : ¬ ((([] : List ElemValue).length : Int) ≥ (rest.length : Int)) := by
        simp only [List.length_nil]
        push_cast
        omega
      have hstep : (absStep (rest.length : Int) [] (.add k v)).2 = [.item a0] := by
        simp only [absStep, List.any_nil, hnot, Bool.false_eq_true, if_false, ha]
      show ((absRun (rest.length : Int) (absStep (rest.length : Int) [] (.add k v)).2 ops).2).Perm _
      rw [hstep]
      exact absRun_filling a0 rest hkeys ops [] _ (by simpa using hr) hrest
        (List.Perm.refl _) ⟨[], rfl⟩ (by simpa using hpos)
    | get k =>
      exact ih (by simpa [addsOf] using hadds) hrest
    | peek k =>
      exact ih (by simpa [addsOf] using hadds) hrest
    | remove k => simp [touchFree] at hop
    | len => simp [touchFree] at hop
    | clear => simp [touchFree] at hop


theorem LRU.Get_of_holds {c : LRU} (hc : Inv c) {k : String} {v : GoAny} (hh : c.holds k v) :
    ∃ c1, LRU.Get c k = some ((v, true), c1) := by
  obtain ⟨h, hg, he⟩ := LRU.holds_get hh
  obtain ⟨w, c1, h0, h1, _⟩ := LRU.Get_hit hc hg
  rw [he] at h0
  injection h0 with h0
  injection h0 with _ h0
  subst h0
  exact ⟨c1, h1⟩

/-! ## Further consequences used by the claims on Add and construction -/

theorem LRU.holds_not_lacks {c : LRU} {k : String} {v : GoAny} (hh : c.holds k v)
    (hl : c.lacks k) : False := by
  unfold LRU.holds at hh
  unfold LRU.lacks at hl
  rw [hl] at hh
  cases hh

theorem LRU.Add_total {c : LRU} (hc : Inv c) (k : String) (v : GoAny) :
    ∃ c1, LRU.Add c k v = some c1 ∧ Inv c1 ∧ c1.capacity = c.capacity ∧
      (∃ t, ordering c1 = .item ⟨k, v⟩ :: t) ∧ c1.holds k v := by
  have key : ∃ c1, LRU.Add c k v = some c1 ∧ Inv c1 ∧ c1.capacity = c.capacity ∧
      (∃ t, ordering c1 = .item ⟨k, v⟩ :: t) := by
    cases hg : GoMap.get c.items k with
    | some h =>
      obtain ⟨c1, h1, h2, h3, _, _, h5⟩ := LRU.Add_hit hc hg v
      exact ⟨c1, h1, h2, h3, _, h5⟩
    | none =>
      by_cases hlen : LRU.Len c ≥ c.capacity
      · obtain ⟨c1, h1, h2, h3, h5⟩ := LRU.Add_full hc hg hlen v
        exact ⟨c1, h1, h2, h3, _, h5⟩
      · obtain ⟨c1, h1, h2, h3, h5⟩ := LRU.Add_room hc hg (not_le.1 hlen) v
        exact ⟨c1, h1, h2, h3, _, h5⟩
  obtain ⟨c1, h1, h2, h3, t, ht⟩ := key
  refine ⟨c1, h1, h2, h3, ⟨t, ht⟩, ?_⟩
  rw [h2.holds_iff, ht]
  simp

theorem LRU.Add_cap_one {c : LRU} (hc : Inv c) (hcap : c.capacity = 1) (k : String)
    (v : GoAny) :
    ∃ c1, LRU.Add c k v = some c1 ∧ Inv c1 ∧ c1.capacity = 1 ∧
      ordering c1 = [.item ⟨k, v⟩] := by
  obtain ⟨c1, h1, h2, h3, ⟨t, ht⟩, _⟩ := LRU.Add_total hc k v
  refine ⟨c1, h1, h2, h3.trans hcap, ?_⟩
  have hlen := h2.len_le
  rw [h3, hcap] at hlen
  have hl : (ordering c1).length = c1.queue.length := by simp [ordering]
  rw [ht] at hl
  simp only [List.length_cons] at hl
  have ht0 : t = [] := by
    apply List.eq_nil_of_length_eq_zero
    omega
  rw [ht, ht0]

theorem run_adds_cap_one (adds : List Item) (last : Item) :
    ∀ c : LRU, Inv c → c.capacity = 1 →
      ∃ rs c1, run c (addOps (adds ++ [last])) = some (rs, c1) ∧ Inv c1 ∧
        c1.capacity = 1 ∧ ordering c1 = [.item last] := by
  induction adds with
  | nil =>
    intro c hc hcap
    obtain ⟨c1, h1, h2, h3, h4⟩ := LRU.Add_cap_one hc hcap last.Key last.Value
    exact ⟨[.unit], c1, by simp [addOps, run, step, h1], h2, h3, h4⟩
  | cons a adds ih =>
    intro c hc hcap
    obtain ⟨c1, h1, h2, h3, _⟩ := LRU.Add_cap_one hc hcap a.Key a.Value
    obtain ⟨rs, c2, g1, g2, g3, g4⟩ := ih c1 h2 h3
    refine ⟨.unit :: rs, c2, ?_, g2, g3, g4⟩
    have e : addOps (a :: adds ++ [last]) =
        Op.add a.Key a.Value :: addOps (adds ++ [last]) := rfl
    rw [e]
    simp only [run, step, h1, Option.map_some', g1]

/-! ## The index as a set of pairs, and the ordering as a list of items -/

theorem GoMap.mem_of_get {m : List (String × Nat)} {k : String} {h : Nat}
    (hg : GoMap.get m k = some h) : (k, h) ∈ m := by
  induction m with
  | nil => simp [GoMap.get] at hg
  | cons p m ih =>
    obtain ⟨a, b⟩ := p
    simp only [GoMap.get, List.lookup_cons] at hg ih
    by_cases hka : k = a
    · subst hka
      simp only [beq_self_eq_true, Option.some.injEq] at hg
      subst hg
      exact List.mem_cons_self _ _
    · have hb : (k == a) = false := by simpa using hka
      rw [hb] at hg
      exact List.mem_cons_of_mem _ (ih hg)

theorem GoMap.get_of_mem {m : List (String × Nat)} (hm : (m.map Prod.fst).Nodup)
    {k : String} {h : Nat} (hin : (k, h) ∈ m) : GoMap.get m k = some h := by
  induction m with
  | nil => cases hin
  | cons p m ih =>
    obtain ⟨a, b⟩ := p
    simp only [List.map_cons, List.nodup_cons] at hm
    simp only [GoMap.get, List.lookup_cons] at ih ⊢
    rcases List.mem_cons.1 hin with e | e
    · injection e with e1 e2
      subst e1
      subst e2
      simp
    · have hka : k ≠ a := by
        intro e1
        subst e1
        exact hm.1 (List.mem_map_of_mem Prod.fst e)
      have hb : (k == a) = false := by simpa using hka
      rw [hb]
      exact ih hm.2 e

theorem GoMap.get_eq_none_iff (m : List (String × Nat)) (k : String) :
    GoMap.get m k = none ↔ k ∉ m.map Prod.fst := by
  induction m with
  | nil => simp [GoMap.get]
  | cons p m ih =>
    obtain ⟨a, b⟩ := p
    simp only [GoMap.get, List.lookup_cons] at ih ⊢
    by_cases hka : k = a
    · subst hka
      simp
    · have hb : (k == a) = false := by simpa using hka
      rw [hb]
      simp only [List.map_cons, List.mem_cons, not_or]
      rw [ih]
      exact ⟨fun h => ⟨hka, h⟩, fun h => h.2⟩

theorem Inv.all_items {c : LRU} (hc : Inv c) : ∀ x ∈ ordering c, ∃ it, x = .item it := by
  intro x hx
  obtain ⟨h, hq, rfl⟩ := List.mem_map.1 hx
  obtain ⟨it, hit, _⟩ := hc.queue_items h hq
  exact ⟨it, hit⟩

theorem map_item_filterMap (l : List ElemValue) (hl : ∀ x ∈ l, ∃ it, x = ElemValue.item it) :
    (l.filterMap ElemValue.item?).map ElemValue.item = l := by
  induction l with
  | nil => rfl
  | cons a t ih =>
    obtain ⟨it, rfl⟩ := hl a (List.mem_cons_self _ _)
    have iht := ih (fun x hx => hl x (List.mem_cons_of_mem _ hx))
    simp only [List.filterMap_cons, ElemValue.item?, List.map_cons]
    rw [iht]

theorem Inv.ordering_entries {c : LRU} (hc : Inv c) :
    ordering c = (entries c).map .item :=
  (map_item_filterMap _ hc.all_items).symm

theorem Inv.mem_entries {c : LRU} (hc : Inv c) (it : Item) :
    it ∈ entries c ↔ ElemValue.item it ∈ ordering c := by
  rw [hc.ordering_entries]
  constructor
  · exact fun h => List.mem_map_of_mem _ h
  · intro h
    obtain ⟨a, ha, e⟩ := List.mem_map.1 h
    injection e with e
    exact e ▸ ha

theorem Inv.entries_keys_nodup {c : LRU} (hc : Inv c) :
    ((entries c).map Item.Key).Nodup := by
  have hnd : (entries c).Nodup := by
    have := hc.ordering_nodup
    rw [hc.ordering_entries] at this
    exact List.Nodup.of_map _ this
  refine List.Nodup.map_on ?_ hnd
  intro a ha b hb hab
  have h1 : ElemValue.item ⟨a.Key, a.Value⟩ ∈ ordering c := (hc.mem_entries a).1 ha
  have h2 : ElemValue.item ⟨a.Key, b.Value⟩ ∈ ordering c := by
    rw [hab]; exact (hc.mem_entries b).1 hb
  have hv := hc.key_unique h1 h2
  cases a
  cases b
  simp only at hab hv
  rw [hab, hv]

theorem Inv.entries_length {c : LRU} (hc : Inv c) : (entries c).length = c.queue.length := by
  have h : (ordering c).length = ((entries c).map ElemValue.item).length := by
    rw [← hc.ordering_entries]
  simpa [ordering] using h.symm

theorem Inv.items_perm {c : LRU} (hc : Inv c) : (c.items.map Prod.snd).Perm c.queue := by
  have hitems : c.items.Nodup := List.Nodup.of_map _ hc.keys_nodup
  have hnd : (c.items.map Prod.snd).Nodup := by
    refine List.Nodup.map_on ?_ hitems
    rintro ⟨k1, h1⟩ hx ⟨k2, h2⟩ hy hxy
    simp only at hxy
    subst hxy
    obtain ⟨v1, e1⟩ := hc.elem_of_get (GoMap.get_of_mem hc.keys_nodup hx)
    obtain ⟨v2, e2⟩ := hc.elem_of_get (GoMap.get_of_mem hc.keys_nodup hy)
    rw [e1] at e2
    injection e2 with e2
    injection e2 with e2 _
    rw [e2]
  rw [List.perm_ext_iff_of_nodup hnd hc.nodup]
  intro h
  constructor
  · intro hm
    obtain ⟨⟨k, h1⟩, hin, e⟩ := List.mem_map.1 hm
    simp only at e
    subst e
    exact (hc.items_queue k h1 (GoMap.get_of_mem hc.keys_nodup hin)).1
  · intro hq
    obtain ⟨it, _, hget⟩ := hc.queue_items h hq
    exact List.mem_map.2 ⟨(it.Key, h), GoMap.mem_of_get hget, rfl⟩

theorem Inv.items_length {c : LRU} (hc : Inv c) : c.items.length = c.queue.length := by
  have := hc.items_perm.length_eq
  simpa using this

theorem LRU.evictOne_explicit {c : LRU} (hc : Inv c) (hlen : LRU.Len c ≥ c.capacity) :
    ∃ e it, GoList.Back c.queue = some e ∧ e ∈ c.queue ∧ c.elems e = .item it ∧
      GoMap.get c.items it.Key = some e ∧
      LRU.evictOne c =
        { c with queue := c.queue.erase e, items := GoMap.delete c.items it.Key } := by
  have hlen1 : (c.queue.length : Int) ≥ c.capacity := hlen
  have hpos := hc.cap_pos
  have hne : c.queue ≠ [] := by
    intro e
    rw [e] at hlen1
    simp at hlen1
    omega
  obtain ⟨e, he⟩ : ∃ e, GoList.Back c.queue = some e :=
    ⟨c.queue.getLast hne, List.getLast?_eq_getLast _ hne⟩
  have heq : e ∈ c.queue := List.mem_of_getLast?_eq_some he
  obtain ⟨it, hit, hget⟩ := hc.queue_items e heq
  refine ⟨e, it, he, heq, hit, hget, ?_⟩
  simp only [LRU.evictOne, he, LRU.deleteElement, hit, GoList.Remove, heq, if_true]

/-! ## The pure model agrees with the ordering semantics -/

theorem SpecModel.find_toOrdering (l : List (String × GoAny)) (k : String) :
    (SpecModel.toOrdering l).find? (keyIs k) = (l.lookup k).map (fun v => .item ⟨k, v⟩) := by
  induction l with
  | nil => rfl
  | cons p l ih =>
    obtain ⟨a, b⟩ := p
    simp only [SpecModel.toOrdering, List.map_cons, List.find?_cons, List.lookup_cons, keyIs]
      at ih ⊢
    by_cases hka : k = a
    · subst hka
      simp
    · have h1 : (a == k) = false := by simpa using fun e : a = k => hka e.symm
      have h2 : (k == a) = false := by simpa using hka
      rw [h1, h2]
      exact ih

theorem SpecModel.any_toOrdering (l : List (String × GoAny)) (k : String) :
    (SpecModel.toOrdering l).any (keyIs k) = (l.lookup k).isSome := by
  induction l with
  | nil => rfl
  | cons p l ih =>
    obtain ⟨a, b⟩ := p
    simp only [SpecModel.toOrdering, List.map_cons, List.any_cons, List.lookup_cons, keyIs]
      at ih ⊢
    by_cases hka : k = a
    · subst hka
      simp
    · have h1 : (a == k) = false := by simpa using fun e : a = k => hka e.symm
      have h2 : (k == a) = false := by simpa using hka
      rw [h1, h2, Bool.false_or]
      exact ih

theorem SpecModel.without_toOrdering (l : List (String × GoAny)) (k : String) :
    LRUCache.without k (SpecModel.toOrdering l) =
      SpecModel.toOrdering (SpecModel.without k l) := by
  induction l with
  | nil => rfl
  | cons p l ih =>
    obtain ⟨a, b⟩ := p
    simp only [LRUCache.without, SpecModel.toOrdering, SpecModel.without, List.map_cons,
      List.filter_cons, keyIs] at ih ⊢
    by_cases hak : a = k
    · subst hak
      simpa using ih
    · have h1 : (a == k) = false := by simpa using hak
      simp only [h1, Bool.not_false, if_true, ne_eq, hak, not_false_eq_true, decide_True,
        List.map_cons]
      rw [ih]

theorem SpecModel.step_abs (cap : Int) (l : List (String × GoAny)) (op : Op) :
    absStep cap (SpecModel.toOrdering l) op =
      ((SpecModel.step cap l op).1, SpecModel.toOrdering (SpecModel.step cap l op).2) := by
  have hlen : (SpecModel.toOrdering l).length = l.length := by simp [SpecModel.toOrdering]
  cases op with
  | add k v =>
    simp only [absStep, SpecModel.step, SpecModel.Add, SpecModel.any_toOrdering,
      SpecModel.without_toOrdering, hlen]
    by_cases h1 : (l.lookup k).isSome = true
    · simp [h1, SpecModel.toOrdering]
    · by_cases h2 : (l.length : Int) ≥ cap
      · simp [h1, h2, SpecModel.toOrdering, List.map_dropLast]
      · simp [h1, h2, SpecModel.toOrdering]
  | get k =>
    simp only [absStep, SpecModel.step, SpecModel.Get, SpecModel.find_toOrdering,
      SpecModel.without_toOrdering]
    cases hl : l.lookup k with
    | none => simp
    | some v => simp [SpecModel.toOrdering]
  | peek k =>
    simp only [absStep, SpecModel.step, SpecModel.Peek, SpecModel.find_toOrdering]
    cases hl : l.lookup k with
    | none => simp
    | some v => simp
  | remove k =>
    simp only [absStep, SpecModel.step, SpecModel.Remove, SpecModel.any_toOrdering,
      SpecModel.without_toOrdering]
  | len =>
    simp only [absStep, SpecModel.step, SpecModel.Len, hlen]
  | clear => rfl

theorem SpecModel.run_abs (cap : Int) (ops : List Op) :
    ∀ l : List (String × GoAny), absRun cap (SpecModel.toOrdering l) ops =
      ((SpecModel.run cap l ops).1, SpecModel.toOrdering (SpecModel.run cap l ops).2) := by
  induction ops with
  | nil => intro l; rfl
  | cons op ops ih =>
    intro l
    simp only [absRun, SpecModel.run, SpecModel.step_abs, ih]

theorem SpecModel.keys_of_ordering {c : LRU} (hc : Inv c) {l : List (String × GoAny)}
    (h : ordering c = SpecModel.toOrdering l) : (l.map Prod.fst).Nodup := by
  have h1 : (entries c).map ElemValue.item =
      (l.map (fun p => (⟨p.1, p.2⟩ : Item))).map ElemValue.item := by
    rw [← hc.ordering_entries, h]
    simp [SpecModel.toOrdering]
  have h2 : entries c = l.map (fun p => (⟨p.1, p.2⟩ : Item)) :=
    List.map_injective_iff.2 item_injective h1
  have h3 := hc.entries_keys_nodup
  rw [h2, List.map_map] at h3
  exact h3

/-! ## Touches and the recency order -/

theorem step_touch {c : LRU} (hc : Inv c) (op : Op) :
    ∃ r c1, step c op = some (r, c1) ∧ Inv c1 ∧
      ((touchedBy op r = none ∧ (ordering c1).Sublist (ordering c)) ∨
        (∃ k v t, touchedBy op r = some k ∧ ordering c1 = .item ⟨k, v⟩ :: t ∧
          t.Sublist (ordering c) ∧ ∀ x ∈ t, keyIs k x = false)) := by
  cases op with
  | add k v =>
    cases hg : GoMap.get c.items k with
    | some h =>
      obtain ⟨c1, h1, h2, _, _, _, h5⟩ := LRU.Add_hit hc hg v
      refine ⟨.unit, c1, by simp [step, h1], h2, Or.inr ⟨k, v, _, rfl, h5, ?_, ?_⟩⟩
      · exact List.filter_sublist _
      · exact fun x hx => (mem_without.1 hx).2
    | none =>
      have hfalse := (hc.lacks_iff k).1 hg
      by_cases hlen : LRU.Len c ≥ c.capacity
      · obtain ⟨c1, h1, h2, _, h5⟩ := LRU.Add_full hc hg hlen v
        refine ⟨.unit, c1, by simp [step, h1], h2, Or.inr ⟨k, v, _, rfl, h5, ?_, ?_⟩⟩
        · exact List.dropLast_sublist _
        · exact fun x hx => hfalse x (List.dropLast_subset _ hx)
      · obtain ⟨c1, h1, h2, _, h5⟩ := LRU.Add_room hc hg (not_le.1 hlen) v
        exact ⟨.unit, c1, by simp [step, h1], h2,
          Or.inr ⟨k, v, _, rfl, h5, List.Sublist.refl _, hfalse⟩⟩
  | get k =>
    cases hg : GoMap.get c.items k with
    | some h =>
      obtain ⟨v, c1, _, h1, h2, _, _, _, _, h5⟩ := LRU.Get_hit hc hg
      refine ⟨.value v true, c1, by simp [step, h1], h2, Or.inr ⟨k, v, _, rfl, h5, ?_, ?_⟩⟩
      · exact List.filter_sublist _
      · exact fun x hx => (mem_without.1 hx).2
    | none =>
      exact ⟨.value .nil false, c, by simp [step, LRU.Get_miss hg], hc,
        Or.inl ⟨rfl, List.Sublist.refl _⟩⟩
  | peek k =>
    cases hg : GoMap.get c.items k with
    | some h =>
      obtain ⟨v, _, h1⟩ := LRU.Peek_hit hc hg
      exact ⟨.value v true, c, by simp [step, h1], hc, Or.inl ⟨rfl, List.Sublist.refl _⟩⟩
    | none =>
      exact ⟨.value .nil false, c, by simp [step, LRU.Peek_miss hg], hc,
        Or.inl ⟨rfl, List.Sublist.refl _⟩⟩
  | remove k =>
    cases hg : GoMap.get c.items k with
    | some h =>
      obtain ⟨c1, h1, h2, _, _, _, h5⟩ := LRU.Remove_hit hc hg
      refine ⟨.removed true, c1, by simp [step, h1], h2, Or.inl ⟨rfl, ?_⟩⟩
      rw [h5]
      exact List.filter_sublist _
    | none =>
      exact ⟨.removed false, c, by simp [step, LRU.Remove_miss hg], hc,
        Or.inl ⟨rfl, List.Sublist.refl _⟩⟩
  | len =>
    exact ⟨.count (LRU.Len c), c, rfl, hc, Or.inl ⟨rfl, List.Sublist.refl _⟩⟩
  | clear =>
    exact ⟨.unit, LRU.Clear c, rfl, hc.clear, Or.inl ⟨rfl, List.nil_sublist _⟩⟩

theorem stampOf_le {st : String → Nat} {now : Nat} (hst : ∀ k, st k ≤ now) (x : ElemValue) :
    stampOf st x ≤ now := by
  cases x with
  | other => exact Nat.zero_le _
  | nilItem => exact Nat.zero_le _
  | item it => exact hst it.Key

theorem stampOf_update {st : String → Nat} {k : String} {t : Nat} {x : ElemValue}
    (hx : keyIs k x = false) : stampOf (Function.update st k t) x = stampOf st x := by
  cases x with
  | other => rfl
  | nilItem => rfl
  | item it =>
    have hne : it.Key ≠ k := by simpa [keyIs] using hx
    simp [stampOf, Function.update_noteq hne]

theorem lastTouch_sorted (ops : List Op) :
    ∀ (c : LRU) (now : Nat) (st : String → Nat), Inv c → (∀ k, st k ≤ now) →
      (ordering c).Pairwise (fun x y => stampOf st y < stampOf st x) →
      (∀ x ∈ ordering c, 1 ≤ stampOf st x) →
      ∃ rs c1, run c ops = some (rs, c1) ∧ Inv c1 ∧
        (ordering c1).Pairwise
          (fun x y => stampOf (lastTouch c now st ops) y < stampOf (lastTouch c now st ops) x) ∧
        (∀ x ∈ ordering c1, 1 ≤ stampOf (lastTouch c now st ops) x) ∧
        (∀ k, lastTouch c now st ops k ≤ now + ops.length) := by
  induction ops with
  | nil =>
    intro c now st hc hst hp hpos
    exact ⟨[], c, rfl, hc, hp, hpos, fun k => by simpa [lastTouch] using hst k⟩
  | cons op ops ih =>
    intro c now st hc hst hp hpos
    obtain ⟨r, c1, h1, h2, hcase⟩ := step_touch hc op
    rcases hcase with ⟨ht, hsub⟩ | ⟨k, v, t, ht, hord, hsub, hkey⟩
    · have hlt : lastTouch c now st (op :: ops) = lastTouch c1 (now + 1) st ops := by
        simp only [lastTouch, h1, ht]
      obtain ⟨rs, c2, g1, g2, g3, g4, g5⟩ := ih c1 (now + 1) st h2
        (fun k => Nat.le_succ_of_le (hst k)) (hp.sublist hsub)
        (fun x hx => hpos x (hsub.subset hx))
      rw [hlt]
      refine ⟨r :: rs, c2, by simp [run, h1, g1], g2, g3, g4, ?_⟩
      intro k
      have := g5 k
      simp only [List.length_cons]
      omega
    · have hlt : lastTouch c now st (op :: ops) =
          lastTouch c1 (now + 1) (Function.update st k (now + 1)) ops := by
        simp only [lastTouch, h1, ht]
      have hst1 : ∀ k1, Function.update st k (now + 1) k1 ≤ now + 1 := by
        intro k1
        by_cases e : k1 = k
        · subst e; simp
        · rw [Function.update_noteq e]
          exact Nat.le_succ_of_le (hst k1)
      have hhead : stampOf (Function.update st k (now + 1)) (.item ⟨k, v⟩) = now + 1 := by
        simp [stampOf]
      have hp1 : (ordering c1).Pairwise (fun x y =>
          stampOf (Function.update st k (now + 1)) y <
            stampOf (Function.update st k (now + 1)) x) := by
        rw [hord, List.pairwise_cons]
        constructor
        · intro y hy
          rw [hhead, stampOf_update (hkey y hy)]
          exact Nat.lt_succ_of_le (stampOf_le hst y)
        · refine List.Pairwise.imp_of_mem ?_ (hp.sublist hsub)
          intro a b ha hb hab
          rw [stampOf_update (hkey a ha), stampOf_update (hkey b hb)]
          exact hab
      have hpos1 : ∀ x ∈ ordering c1, 1 ≤ stampOf (Function.update st k (now + 1)) x := by
        intro x hx
        rw [hord] at hx
        rcases List.mem_cons.1 hx with e | e
        · rw [e, hhead]
          omega
        · rw [stampOf_update (hkey x e)]
          exact hpos x (hsub.subset e)
      obtain ⟨rs, c2, g1, g2, g3, g4, g5⟩ := ih c1 (now + 1) _ h2 hst1 hp1 hpos1
      rw [hlt]
      refine ⟨r :: rs, c2, by simp [run, h1, g1], g2, g3, g4, ?_⟩
      intro k1
      have := g5 k1
      simp only [List.length_cons]
      omega

/-! ## The claims -/

/-- C1 (capacity invariant): whatever finite sequence of calls is applied to
`NewLRU n`, every call returns, and after the whole sequence as well as after
each of its calls (that is, after every prefix `ops.take m`) the state has
`0 ≤ Len ≤ capacity`, where the capacity is `n` when `n > 0` and 1 otherwise. -/
theorem C1_capacity_invariant (n : Int) (ops : List Op) :
    (∃ rs c, run (LRU.NewLRU n) ops = some (rs, c) ∧
      c.capacity = (if n > 0 then n else 1) ∧ 0 ≤ LRU.Len c ∧ LRU.Len c ≤ c.capacity) ∧
    ∀ m, ∃ rs c, run (LRU.NewLRU n) (ops.take m) = some (rs, c) ∧
      c.capacity = (if n > 0 then n else 1) ∧ 0 ≤ LRU.Len c ∧ LRU.Len c ≤ c.capacity := by
  have key : ∀ l : List Op, ∃ rs c, run (LRU.NewLRU n) l = some (rs, c) ∧
      c.capacity = (if n > 0 then n else 1) ∧ 0 ≤ LRU.Len c ∧ LRU.Len c ≤ c.capacity := by
    intro l
    obtain ⟨rs, c, h1, h2, h3, _, _⟩ := run_spec (Inv.newLRU n) l
    refine ⟨rs, c, h1, ?_, ?_, h2.len_le⟩
    · rw [h3]
      show (if n ≤ 0 then 1 else n) = if n > 0 then n else 1
      split <;> split <;> omega
    · show (0 : Int) ≤ (c.queue.length : Int)
      omega
  exact ⟨key ops, fun m => key (ops.take m)⟩

/-- C2 (Add of a new key at full capacity): in a reachable state with
`Len = capacity`, `Add k v` of a key that is not in the cache returns, drops
exactly the back entry of the ordering (also from the index), puts `(k, v)` at
the front, keeps every other entry with its value and relative order, and
leaves `Len` equal to the capacity. -/
theorem C2_add_new_at_capacity (c : LRU) (hr : Reachable c) (k : String) (v : GoAny)
    (hfull : LRU.Len c = c.capacity) (hk : c.lacks k) :
    ∃ c1 front last, LRU.Add c k v = some c1 ∧
      ordering c = front ++ [.item last] ∧
      ordering c1 = .item ⟨k, v⟩ :: front ∧
      c1.lacks last.Key ∧ c1.holds k v ∧
      (∀ k1 v1, k1 ≠ k → k1 ≠ last.Key → (c1.holds k1 v1 ↔ c.holds k1 v1)) ∧
      LRU.Len c1 = c1.capacity ∧ c1.capacity = c.capacity := by
  have hc := hr.inv
  obtain ⟨c1, h1, h2, h3, h5⟩ := LRU.Add_full hc hk (le_of_eq hfull.symm) v
  have hpos := hc.cap_pos
  have hne : c.queue ≠ [] := by
    intro e
    have : LRU.Len c = 0 := by simp [LRU.Len, GoList.Len, e]
    omega
  have hmem : c.queue.getLast hne ∈ c.queue := List.getLast_mem hne
  obtain ⟨last, hlast, _⟩ := hc.queue_items _ hmem
  have hord : ordering c = (ordering c).dropLast ++ [.item last] := by
    have hne2 : ordering c ≠ [] := by
      intro e; exact hne (List.map_eq_nil_iff.1 e)
    have hl : (ordering c).getLast hne2 = .item last := by
      unfold ordering
      rw [List.getLast_map, hlast]
    rw [← hl]
    exact (List.dropLast_append_getLast hne2).symm
  have hlastmem : ElemValue.item last ∈ ordering c := by
    rw [hord]; simp
  have hklast : k ≠ last.Key := by
    intro e
    have := (hc.lacks_iff k).1 hk _ hlastmem
    simp [keyIs, e] at this
  have hnd := hc.ordering_nodup
  refine ⟨c1, (ordering c).dropLast, last, h1, hord, h5, ?_, ?_, ?_, ?_, h3⟩
  · rw [h2.lacks_iff, h5]
    intro x hx
    rcases List.mem_cons.1 hx with e | e
    · subst e
      simpa [keyIs] using hklast
    · by_contra hne3
      obtain ⟨w, hw⟩ := keyIs_elim (by simpa using hne3 : keyIs last.Key x = true)
      have hxin : x ∈ ordering c := List.dropLast_subset _ e
      rw [hw] at hxin e
      have hlm : ElemValue.item ⟨last.Key, last.Value⟩ ∈ ordering c := hlastmem
      have hwl := hc.key_unique hxin hlm
      subst hwl
      rw [hord] at hnd
      exact (List.nodup_append.1 hnd).2.2 e (List.mem_singleton.2 rfl)
  · rw [h2.holds_iff, h5]; simp
  · intro k1 v1 hk1 hk1l
    rw [h2.holds_iff, hc.holds_iff, h5]
    constructor
    · intro hm
      rcases List.mem_cons.1 hm with e | e
      · injection e with e
        injection e with e
        exact absurd e hk1
      · exact List.dropLast_subset _ e
    · intro hm
      rw [hord] at hm
      rcases List.mem_append.1 hm with e | e
      · exact List.mem_cons_of_mem _ e
      · simp only [List.mem_singleton] at e
        injection e with e
        rw [← e] at hk1l
        exact absurd rfl hk1l
  · rw [← ordering_length, h5, h3, ← hfull, ← ordering_length]
    have hl : (ordering c).length = (ordering c).dropLast.length + 1 := by
      conv_lhs => rw [hord]
      simp
    rw [List.length_cons, hl]

theorem C2_add_new_at_capacity_witness :
    LRU.Len demoFull = demoFull.capacity ∧ demoFull.lacks "c" ∧
    ∃ c1 front last, LRU.Add demoFull "c" (.int 3) = some c1 ∧
      ordering demoFull = front ++ [.item last] ∧
      ordering c1 = .item ⟨"c", .int 3⟩ :: front ∧
      c1.lacks last.Key ∧ c1.holds "c" (.int 3) ∧
      (∀ k1 v1, k1 ≠ "c" → k1 ≠ last.Key → (c1.holds k1 v1 ↔ demoFull.holds k1 v1)) ∧
      LRU.Len c1 = c1.capacity ∧ c1.capacity = demoFull.capacity :=
  ⟨by decide, by decide,
    C2_add_new_at_capacity demoFull (stateAfter_reachable _ _) "c" (.int 3)
      (by decide) (by decide)⟩


/-- C3 (Get on a present key): in a reachable state where key `k` has value
`v`, `Get k` returns `(v, true)` and moves the entry of `k` to the front; the
index, every stored value, `Len`, the capacity and the relative order of the
other entries are unchanged. -/
theorem C3_get_present (c : LRU) (hr : Reachable c) (k : String) (v : GoAny)
    (hk : c.holds k v) :
    ∃ c1, LRU.Get c k = some ((v, true), c1) ∧
      ordering c1 = .item ⟨k, v⟩ :: (ordering c).erase (.item ⟨k, v⟩) ∧
      c1.items = c.items ∧
      (∀ k1 v1, c1.holds k1 v1 ↔ c.holds k1 v1) ∧
      (∀ k1, c1.lacks k1 ↔ c.lacks k1) ∧
      LRU.Len c1 = LRU.Len c ∧ c1.capacity = c.capacity := by
  have hc := hr.inv
  obtain ⟨h, hg, he⟩ := LRU.holds_get hk
  obtain ⟨w, c1, h0, h1, _, h3, h4, h5, h6, h7⟩ := LRU.Get_hit hc hg
  have hwv : w = v := by
    rw [he] at h0
    injection h0 with h0
    injection h0 with _ h0
    exact h0.symm
  subst hwv
  refine ⟨c1, h1, ?_, h4, ?_, ?_, Inv.len_perm h6, h3⟩
  · rw [h7, hc.without_eq_erase hk]
  · intro k1 v1
    unfold LRU.holds
    rw [h4, h5]
  · intro k1
    unfold LRU.lacks
    rw [h4]

theorem C3_get_present_witness :
    demoFull.holds "a" (.int 1) ∧
    ∃ c1, LRU.Get demoFull "a" = some ((.int 1, true), c1) ∧
      ordering c1 = .item ⟨"a", .int 1⟩ :: (ordering demoFull).erase (.item ⟨"a", .int 1⟩) ∧
      c1.items = demoFull.items ∧
      (∀ k1 v1, c1.holds k1 v1 ↔ demoFull.holds k1 v1) ∧
      (∀ k1, c1.lacks k1 ↔ demoFull.lacks k1) ∧
      LRU.Len c1 = LRU.Len demoFull ∧ c1.capacity = demoFull.capacity :=
  ⟨by decide, C3_get_present demoFull (stateAfter_reachable _ _) "a" (.int 1) (by decide)⟩

/-- C4 (Add of an existing key): in a reachable state (full or not) where key
`k` is present, `Add k v` overwrites the value of `k` with `v`, moves its entry
to the front and evicts nothing: the index, `Len`, the capacity, the values of
the other keys and their relative order are unchanged. -/
theorem C4_add_existing (c : LRU) (hr : Reachable c) (k : String) (old v : GoAny)
    (hk : c.holds k old) :
    ∃ c1, LRU.Add c k v = some c1 ∧
      ordering c1 = .item ⟨k, v⟩ :: (ordering c).erase (.item ⟨k, old⟩) ∧
      c1.items = c.items ∧ c1.holds k v ∧
      (∀ k1 v1, k1 ≠ k → (c1.holds k1 v1 ↔ c.holds k1 v1)) ∧
      (∀ k1, c1.lacks k1 ↔ c.lacks k1) ∧
      LRU.Len c1 = LRU.Len c ∧ c1.capacity = c.capacity := by
  have hc := hr.inv
  obtain ⟨h, hg, he⟩ := LRU.holds_get hk
  obtain ⟨c1, h1, h2, h3, h4, h6, h7⟩ := LRU.Add_hit hc hg v
  refine ⟨c1, h1, ?_, h4, ?_, ?_, ?_, Inv.len_perm h6, h3⟩
  · rw [h7, hc.without_eq_erase hk]
  · rw [h2.holds_iff, h7]; simp
  · intro k1 v1 hk1
    rw [h2.holds_iff, hc.holds_iff, h7, List.mem_cons, mem_without]
    constructor
    · intro hm
      rcases hm with e | e
      · injection e with e
        injection e with e
        exact absurd e hk1
      · exact e.1
    · intro hm
      refine Or.inr ⟨hm, ?_⟩
      simpa [keyIs] using hk1
  · intro k1
    unfold LRU.lacks
    rw [h4]

theorem C4_add_existing_witness :
    LRU.Len demoFull = demoFull.capacity ∧ demoFull.holds "a" (.int 1) ∧
    ∃ c1, LRU.Add demoFull "a" (.int 7) = some c1 ∧
      ordering c1 = .item ⟨"a", .int 7⟩ :: (ordering demoFull).erase (.item ⟨"a", .int 1⟩) ∧
      c1.items = demoFull.items ∧ c1.holds "a" (.int 7) ∧
      (∀ k1 v1, k1 ≠ "a" → (c1.holds k1 v1 ↔ demoFull.holds k1 v1)) ∧
      (∀ k1, c1.lacks k1 ↔ demoFull.lacks k1) ∧
      LRU.Len c1 = LRU.Len demoFull ∧ c1.capacity = demoFull.capacity :=
  ⟨by decide, by decide,
    C4_add_existing demoFull (stateAfter_reachable _ _) "a" (.int 1) (.int 7) (by decide)⟩


/-- C5 (recency is preserved on access): with capacity at least 2, in a
reachable state where key `k` has value `v`, `Get k` followed by `Add k1 v1`
of a key that is not in the cache leaves `k` present with value `v` (whatever
was evicted is another key), and `k1` is present as well. -/
theorem C5_recency_preserved (c : LRU) (hr : Reachable c) (hcap : 2 ≤ c.capacity)
    (k : String) (v : GoAny) (hk : c.holds k v) (k1 : String) (v1 : GoAny)
    (hk1 : c.lacks k1) :
    ∃ c1 c2, LRU.Get c k = some ((v, true), c1) ∧ LRU.Add c1 k1 v1 = some c2 ∧
      c2.holds k v ∧ c2.holds k1 v1 ∧
      LRU.Peek c2 k = some ((v, true), c2) ∧ LRU.Peek c2 k1 = some ((v1, true), c2) := by
  have hc := hr.inv
  obtain ⟨h, hg, he⟩ := LRU.holds_get hk
  obtain ⟨w, c1, h0, h1, h2, h3, h4, _, _, h7⟩ := LRU.Get_hit hc hg
  have hwv : w = v := by
    rw [he] at h0
    injection h0 with h0
    injection h0 with _ h0
    exact h0.symm
  subst hwv
  have hmiss : GoMap.get c1.items k1 = none := by rw [h4]; exact hk1
  have key : ∃ c2, LRU.Add c1 k1 v1 = some c2 ∧ Inv c2 ∧
      ElemValue.item ⟨k, w⟩ ∈ ordering c2 ∧ ElemValue.item ⟨k1, v1⟩ ∈ ordering c2 := by
    by_cases hlen : LRU.Len c1 ≥ c1.capacity
    · obtain ⟨c2, g1, g2, _, g4⟩ := LRU.Add_full h2 hmiss hlen v1
      refine ⟨c2, g1, g2, ?_, by rw [g4]; simp⟩
      rw [g4, h7]
      have hne : without k (ordering c) ≠ [] := by
        intro e
        rw [← ordering_length, h7, e, h3] at hlen
        simp at hlen
        omega
      rw [List.dropLast_cons_of_ne_nil hne]
      simp
    · obtain ⟨c2, g1, g2, _, g4⟩ := LRU.Add_room h2 hmiss (not_le.1 hlen) v1
      refine ⟨c2, g1, g2, ?_, by rw [g4]; simp⟩
      rw [g4, h7]
      simp
  obtain ⟨c2, g1, g2, g3, g4⟩ := key
  have hk2 := (g2.holds_iff k w).2 g3
  have hk3 := (g2.holds_iff k1 v1).2 g4
  exact ⟨c1, c2, h1, g1, hk2, hk3, LRU.Peek_of_holds hk2, LRU.Peek_of_holds hk3⟩

theorem C5_recency_preserved_witness :
    (2 ≤ demoFull.capacity ∧ demoFull.holds "a" (.int 1) ∧ demoFull.lacks "c") ∧
    (∃ c1 c2, LRU.Get demoFull "a" = some ((.int 1, true), c1) ∧
      LRU.Add c1 "c" (.int 3) = some c2 ∧
      c2.holds "a" (.int 1) ∧ c2.holds "c" (.int 3) ∧
      LRU.Peek c2 "a" = some ((.int 1, true), c2) ∧
      LRU.Peek c2 "c" = some ((.int 3, true), c2)) ∧
    (run (LRU.NewLRU 2)
        [.add "a" (.int 1), .add "b" (.int 2), .get "a", .add "c" (.int 3),
          .get "b", .get "a", .get "c"]).map Prod.fst =
      some [.unit, .unit, .value (.int 1) true, .unit,
        .value .nil false, .value (.int 1) true, .value (.int 3) true] :=
  ⟨by decide,
    C5_recency_preserved demoFull (stateAfter_reachable _ _) (by decide) "a" (.int 1)
      (by decide) "c" (.int 3) (by decide),
    by decide⟩

/-- C6 (eviction correctness): let `N ≥ 1` and let a sequence of calls consist
of `Add` calls on `N + 1` pairwise distinct keys `k0, k1, ..., kN` (in this
order) interleaved with any `Get` or `Peek` calls on keys other than `k0`.
Run from `NewLRU N`, every call returns, and in the final state `k0` is absent
(`Get k0` misses) while `k1 .. kN` are all present with the values they were
added with. -/
theorem C6_eviction_correctness (N : Nat) (hN : 1 ≤ N) (ops : List Op) (k0 : String)
    (v0 : GoAny) (rest : List Item) (hadds : addsOf ops = ⟨k0, v0⟩ :: rest)
    (hlen : rest.length = N) (hdist : (k0 :: rest.map Item.Key).Nodup)
    (hfree : ∀ op ∈ ops, touchFree k0 op = true) :
    ∃ rs c, run (LRU.NewLRU (N : Int)) ops = some (rs, c) ∧
      c.lacks k0 ∧ LRU.Get c k0 = some ((.nil, false), c) ∧
      ∀ a ∈ rest, c.holds a.Key a.Value ∧
        LRU.Peek c a.Key = some ((a.Value, true), c) ∧
        ∃ c1, LRU.Get c a.Key = some ((a.Value, true), c1) := by
  obtain ⟨rs, c, h1, hinv, _, _, habs⟩ := run_spec (Inv.newLRU (N : Int)) ops
  have hcap : (LRU.NewLRU (N : Int)).capacity = (rest.length : Int) := by
    show (if (N : Int) ≤ 0 then 1 else (N : Int)) = (rest.length : Int)
    rw [hlen]
    split <;> omega
  have hempty : ordering (LRU.NewLRU (N : Int)) = [] := rfl
  rw [hcap, hempty] at habs
  have hperm : (ordering c).Perm (rest.map .item) := by
    have := absRun_scenario ⟨k0, v0⟩ rest (by omega) hdist ops hadds hfree
    rw [habs] at this
    exact this
  have hlack : c.lacks k0 := by
    rw [hinv.lacks_iff]
    intro x hx
    obtain ⟨a, ha, e⟩ := List.mem_map.1 (hperm.mem_iff.1 hx)
    rw [← e]
    have hne : a.Key ≠ k0 := by
      intro e1
      exact (List.nodup_cons.1 hdist).1 (e1 ▸ List.mem_map_of_mem _ ha)
    simpa [keyIs] using hne
  refine ⟨rs, c, h1, hlack, LRU.Get_miss hlack, ?_⟩
  intro a ha
  have hh : c.holds a.Key a.Value :=
    (hinv.holds_iff a.Key a.Value).2 (hperm.mem_iff.2 (List.mem_map_of_mem _ ha))
  exact ⟨hh, LRU.Peek_of_holds hh, LRU.Get_of_holds hinv hh⟩

theorem C6_eviction_correctness_witness :
    (∃ rs c, run (LRU.NewLRU ((2 : Nat) : Int))
        [.add "a" (.int 1), .get "b", .add "b" (.int 2), .peek "b", .get "c",
          .add "c" (.int 3), .get "b"] = some (rs, c) ∧
      c.lacks "a" ∧ LRU.Get c "a" = some ((.nil, false), c) ∧
      ∀ a ∈ [(⟨"b", .int 2⟩ : Item), ⟨"c", .int 3⟩], c.holds a.Key a.Value ∧
        LRU.Peek c a.Key = some ((a.Value, true), c) ∧
        ∃ c1, LRU.Get c a.Key = some ((a.Value, true), c1)) ∧
    (run (LRU.NewLRU 2)
        [.add "a" (.int 1), .get "b", .add "b" (.int 2), .peek "b", .get "c",
          .add "c" (.int 3), .get "b", .get "a", .get "b", .get "c"]).map Prod.fst =
      some [.unit, .value .nil false, .unit, .value (.int 2) true, .value .nil false,
        .unit, .value (.int 2) true, .value .nil false, .value (.int 2) true,
        .value (.int 3) true] :=
  ⟨C6_eviction_correctness 2 (by decide)
      [.add "a" (.int 1), .get "b", .add "b" (.int 2), .peek "b", .get "c",
        .add "c" (.int 3), .get "b"]
      "a" (.int 1) [⟨"b", .int 2⟩, ⟨"c", .int 3⟩] (by decide) (by decide) (by decide)
      (by decide),
    by decide⟩

/-- C7 (Peek is a pure observation): in a reachable state `Peek k` returns
exactly the pair that `Get k` returns there, and leaves the whole state
(ordering, index, element store, capacity) as it was. -/
theorem C7_peek_pure (c : LRU) (hr : Reachable c) (k : String) :
    ∃ r c1, LRU.Peek c k = some (r, c) ∧ LRU.Get c k = some (r, c1) := by
  have hc := hr.inv
  cases hg : GoMap.get c.items k with
  | none => exact ⟨(.nil, false), c, LRU.Peek_miss hg, LRU.Get_miss hg⟩
  | some h =>
    obtain ⟨v, h0, h1⟩ := LRU.Peek_hit hc hg
    obtain ⟨w, c1, g0, g1, _⟩ := LRU.Get_hit hc hg
    have hwv : w = v := by
      rw [h0] at g0
      injection g0 with g0
      injection g0 with _ g0
      exact g0.symm
    subst hwv
    exact ⟨(w, true), c1, h1, g1⟩

theorem C7_peek_pure_witness :
    (∃ r c1, LRU.Peek demoFull "a" = some (r, demoFull) ∧ LRU.Get demoFull "a" = some (r, c1)) ∧
    (LRU.Peek demoFull "a").map Prod.fst = some (.int 1, true) ∧
    (LRU.Get demoFull "a").map Prod.fst = some (.int 1, true) :=
  ⟨C7_peek_pure demoFull (stateAfter_reachable _ _) "a", by decide, by decide⟩


/-- C8 (Peek does not protect from eviction): in a reachable full state whose
back entry is `(k, v)`, any number `m` of `Peek k` calls followed by `Add k1 v1`
of a key that is not in the cache evicts `k` (a later `Get k` misses), while
`k1` and every other key that was present remain with their values. -/
theorem C8_peek_no_protection (c : LRU) (hr : Reachable c)
    (hfull : LRU.Len c = c.capacity) (k : String) (v : GoAny) (front : List ElemValue)
    (hback : ordering c = front ++ [.item ⟨k, v⟩]) (k1 : String) (v1 : GoAny)
    (hk1 : c.lacks k1) (m : Nat) :
    ∃ rs c1, run c (List.replicate m (.peek k) ++ [.add k1 v1]) = some (rs, c1) ∧
      rs = List.replicate m (.value v true) ++ [.unit] ∧
      c1.lacks k ∧ LRU.Get c1 k = some ((.nil, false), c1) ∧
      ordering c1 = .item ⟨k1, v1⟩ :: front ∧ c1.holds k1 v1 ∧
      (∀ k2 v2, k2 ≠ k → c.holds k2 v2 → c1.holds k2 v2) := by
  have hc := hr.inv
  have hkin : ElemValue.item ⟨k, v⟩ ∈ ordering c := by
    rw [hback]; simp
  have hkv := (hc.holds_iff k v).2 hkin
  obtain ⟨c1, h1, h2, _, h5⟩ := LRU.Add_full hc hk1 (le_of_eq hfull.symm) v1
  rw [hback, List.dropLast_concat] at h5
  have hkk : k1 ≠ k := by
    intro e
    have := (hc.lacks_iff k1).1 hk1 _ hkin
    simp [keyIs, e] at this
  have hlack : c1.lacks k := by
    rw [h2.lacks_iff, h5]
    intro x hx
    rcases List.mem_cons.1 hx with e | e
    · subst e
      simpa [keyIs] using hkk
    · exact hc.front_lacks hback x e
  refine ⟨List.replicate m (.value v true) ++ [.unit], c1, ?_, rfl, hlack,
    LRU.Get_miss hlack, h5, ?_, ?_⟩
  · rw [run_peeks (LRU.Peek_of_holds hkv)]
    simp [run, step, h1]
  · rw [h2.holds_iff, h5]; simp
  · intro k2 v2 hk2 hh
    rw [h2.holds_iff, h5]
    have hm := (hc.holds_iff k2 v2).1 hh
    rw [hback] at hm
    rcases List.mem_append.1 hm with e | e
    · exact List.mem_cons_of_mem _ e
    · simp only [List.mem_singleton] at e
      injection e with e
      injection e with e
      exact absurd e hk2

theorem C8_peek_no_protection_witness :
    (LRU.Len demoFull = demoFull.capacity ∧
      ordering demoFull = [.item ⟨"b", .int 2⟩] ++ [.item ⟨"a", .int 1⟩] ∧
      demoFull.lacks "c") ∧
    (∃ rs c1, run demoFull (List.replicate 3 (.peek "a") ++ [.add "c" (.int 3)]) = some (rs, c1) ∧
      rs = List.replicate 3 (.value (.int 1) true) ++ [.unit] ∧
      c1.lacks "a" ∧ LRU.Get c1 "a" = some ((.nil, false), c1) ∧
      ordering c1 = .item ⟨"c", .int 3⟩ :: [.item ⟨"b", .int 2⟩] ∧ c1.holds "c" (.int 3) ∧
      (∀ k2 v2, k2 ≠ "a" → demoFull.holds k2 v2 → c1.holds k2 v2)) ∧
    (run (LRU.NewLRU 2)
        [.add "a" (.int 1), .add "b" (.int 2), .peek "a", .peek "a", .peek "a",
          .add "c" (.int 3), .get "a", .get "b", .get "c"]).map Prod.fst =
      some [.unit, .unit, .value (.int 1) true, .value (.int 1) true, .value (.int 1) true,
        .unit, .value .nil false, .value (.int 2) true, .value (.int 3) true] :=
  ⟨by decide,
    C8_peek_no_protection demoFull (stateAfter_reachable _ _) (by decide) "a" (.int 1)
      [.item ⟨"b", .int 2⟩] (by decide) "c" (.int 3) (by decide) 3,
    by decide⟩


/-- C9 (Remove): in a reachable state `Remove k` returns true exactly when `k`
is in the cache.  When it returns true the entry of `k` is gone from the
ordering and the index (a following `Get k` or `Peek k` misses), `Len` is one
less, and the other entries keep their values and relative order.  When it
returns false the state is unchanged. -/
theorem C9_remove (c : LRU) (hr : Reachable c) (k : String) :
    ((LRU.Remove c k).1 = true ↔ ∃ v, c.holds k v) ∧
    ((LRU.Remove c k).1 = false ↔ c.lacks k) ∧
    ((LRU.Remove c k).1 = true → ∃ v, c.holds k v ∧
      ordering (LRU.Remove c k).2 = (ordering c).erase (.item ⟨k, v⟩) ∧
      (LRU.Remove c k).2.lacks k ∧
      (∀ x ∈ ordering (LRU.Remove c k).2, keyIs k x = false) ∧
      LRU.Get (LRU.Remove c k).2 k = some ((.nil, false), (LRU.Remove c k).2) ∧
      LRU.Peek (LRU.Remove c k).2 k = some ((.nil, false), (LRU.Remove c k).2) ∧
      LRU.Len (LRU.Remove c k).2 = LRU.Len c - 1 ∧
      (LRU.Remove c k).2.capacity = c.capacity ∧
      (∀ k1 v1, k1 ≠ k → ((LRU.Remove c k).2.holds k1 v1 ↔ c.holds k1 v1))) ∧
    ((LRU.Remove c k).1 = false → (LRU.Remove c k).2 = c) := by
  have hc := hr.inv
  cases hg : GoMap.get c.items k with
  | none =>
    have hrm := LRU.Remove_miss hg
    have hno : ¬ ∃ v, c.holds k v := by
      rintro ⟨v, hv⟩
      obtain ⟨h, hg1, _⟩ := LRU.holds_get hv
      rw [hg] at hg1
      cases hg1
    rw [hrm]
    refine ⟨?_, ?_, ?_, fun _ => rfl⟩
    · simp [hno]
    · simp [LRU.lacks, hg]
    · intro hf; cases hf
  | some h =>
    obtain ⟨c1, h1, h2, h3, h4, h5, h6⟩ := LRU.Remove_hit hc hg
    obtain ⟨v, hv⟩ := hc.elem_of_get hg
    have hkv : c.holds k v := by simp [LRU.holds, hg, hv]
    have hq : h ∈ c.queue := (hc.items_queue k h hg).1
    have hlack : c1.lacks k := by
      show GoMap.get c1.items k = none
      rw [h4, GoMap.get_delete]
      simp
    rw [h1]
    refine ⟨?_, ?_, ?_, ?_⟩
    · simp only [true_iff]
      exact ⟨v, hkv⟩
    · simp [LRU.lacks, hg]
    · intro _
      refine ⟨v, hkv, ?_, hlack, (h2.lacks_iff k).1 hlack, LRU.Get_miss hlack,
        LRU.Peek_miss hlack, ?_, h3, ?_⟩
      · show ordering c1 = _
        rw [h6, hc.without_eq_erase hkv]
      · show LRU.Len c1 = LRU.Len c - 1
        have hlen : c1.queue.length = c.queue.length - 1 := by
          rw [h5, List.length_erase_of_mem hq]
        have hpos : 0 < c.queue.length := List.length_pos_of_mem hq
        simp only [LRU.Len, GoList.Len, hlen]
        omega
      · intro k1 v1 hk1
        show c1.holds k1 v1 ↔ c.holds k1 v1
        rw [h2.holds_iff, hc.holds_iff, h6, mem_without]
        constructor
        · exact fun hm => hm.1
        · intro hm
          exact ⟨hm, by simpa [keyIs] using hk1⟩
    · intro hf; cases hf

theorem C9_remove_witness :
    ((LRU.Remove demoFull "a").1 = true ↔ ∃ v, demoFull.holds "a" v) ∧
    ((LRU.Remove demoFull "a").1 = false ↔ demoFull.lacks "a") ∧
    ((LRU.Remove demoFull "a").1 = true → ∃ v, demoFull.holds "a" v ∧
      ordering (LRU.Remove demoFull "a").2 = (ordering demoFull).erase (.item ⟨"a", v⟩) ∧
      (LRU.Remove demoFull "a").2.lacks "a" ∧
      (∀ x ∈ ordering (LRU.Remove demoFull "a").2, keyIs "a" x = false) ∧
      LRU.Get (LRU.Remove demoFull "a").2 "a" =
        some ((.nil, false), (LRU.Remove demoFull "a").2) ∧
      LRU.Peek (LRU.Remove demoFull "a").2 "a" =
        some ((.nil, false), (LRU.Remove demoFull "a").2) ∧
      LRU.Len (LRU.Remove demoFull "a").2 = LRU.Len demoFull - 1 ∧
      (LRU.Remove demoFull "a").2.capacity = demoFull.capacity ∧
      (∀ k1 v1, k1 ≠ "a" →
        ((LRU.Remove demoFull "a").2.holds k1 v1 ↔ demoFull.holds k1 v1))) ∧
    ((LRU.Remove demoFull "a").1 = false → (LRU.Remove demoFull "a").2 = demoFull) ∧
    (LRU.Remove demoFull "a").1 = true ∧ (LRU.Remove demoFull "z").1 = false ∧
    (run (LRU.NewLRU 2) [.remove "a", .add "a" (.int 1), .remove "a", .get "a"]).map Prod.fst =
      some [.removed false, .unit, .removed true, .value .nil false] :=
  ⟨(C9_remove demoFull (stateAfter_reachable _ _) "a").1,
    (C9_remove demoFull (stateAfter_reachable _ _) "a").2.1,
    (C9_remove demoFull (stateAfter_reachable _ _) "a").2.2.1,
    (C9_remove demoFull (stateAfter_reachable _ _) "a").2.2.2,
    by decide, by decide, by decide⟩

/-- C10 (Clear resets fully): in a reachable state with capacity `c.capacity`,
after `Clear` the length is 0, `Get` and `Peek` miss on every key, the capacity
is unchanged, and the state behaves like `NewLRU c.capacity`: every sequence of
calls returns the same results from both and leaves the same ordering. -/
theorem C10_clear_resets (c : LRU) (hr : Reachable c) :
    LRU.Len (LRU.Clear c) = 0 ∧
    (∀ k, LRU.Get (LRU.Clear c) k = some ((.nil, false), LRU.Clear c) ∧
      LRU.Peek (LRU.Clear c) k = some ((.nil, false), LRU.Clear c)) ∧
    (LRU.Clear c).capacity = c.capacity ∧
    (∀ ops, ∃ rs c1 c2, run (LRU.Clear c) ops = some (rs, c1) ∧
      run (LRU.NewLRU c.capacity) ops = some (rs, c2) ∧
      ordering c1 = ordering c2 ∧ c1.capacity = c2.capacity) := by
  have hc := hr.inv
  have hcap : (LRU.NewLRU c.capacity).capacity = c.capacity := by
    show (if c.capacity ≤ 0 then 1 else c.capacity) = c.capacity
    have := hc.cap_pos
    split <;> omega
  refine ⟨rfl, fun k => ⟨rfl, rfl⟩, rfl, ?_⟩
  intro ops
  obtain ⟨rs, c1, h1, _, h3, _, h5⟩ := run_spec hc.clear ops
  obtain ⟨rs2, c2, g1, _, g3, _, g5⟩ := run_spec (Inv.newLRU c.capacity) ops
  have e1 : (LRU.Clear c).capacity = c.capacity := rfl
  have e2 : ordering (LRU.Clear c) = [] := rfl
  have e3 : ordering (LRU.NewLRU c.capacity) = [] := rfl
  rw [e1, e2] at h5
  rw [hcap, e3, h5] at g5
  injection g5 with g5 g6
  subst g5
  exact ⟨rs, c1, c2, h1, g1, g6, by rw [h3, g3, hcap]; rfl⟩

theorem C10_clear_resets_witness :
    LRU.Len (LRU.Clear demoFull) = 0 ∧
    (∀ k, LRU.Get (LRU.Clear demoFull) k = some ((.nil, false), LRU.Clear demoFull) ∧
      LRU.Peek (LRU.Clear demoFull) k = some ((.nil, false), LRU.Clear demoFull)) ∧
    (LRU.Clear demoFull).capacity = demoFull.capacity ∧
    (∀ ops, ∃ rs c1 c2, run (LRU.Clear demoFull) ops = some (rs, c1) ∧
      run (LRU.NewLRU demoFull.capacity) ops = some (rs, c2) ∧
      ordering c1 = ordering c2 ∧ c1.capacity = c2.capacity) ∧
    (run demoFull [.clear, .len, .get "a", .add "x" (.int 1), .add "y" (.int 2),
        .add "z" (.int 3), .peek "x", .len]).map Prod.fst =
      some [.unit, .count 0, .value .nil false, .unit, .unit, .unit, .value .nil false,
        .count 2] :=
  ⟨(C10_clear_resets demoFull (stateAfter_reachable _ _)).1,
    (C10_clear_resets demoFull (stateAfter_reachable _ _)).2.1,
    (C10_clear_resets demoFull (stateAfter_reachable _ _)).2.2.1,
    (C10_clear_resets demoFull (stateAfter_reachable _ _)).2.2.2,
    by decide⟩


/-- C11 (construction never fails and normalises the capacity): for every
integer `n`, `NewLRU n` is an empty cache (`Len = 0`, `Get` and `Peek` miss on
every key) whose capacity is `n` when `n > 0` and 1 otherwise; the capacity is
at least 1 in every reachable state; and when `n ≤ 0`, after any non-empty
sequence of `Add` calls the cache holds exactly the pair added last. -/
theorem C11_construction (n : Int) :
    LRU.Len (LRU.NewLRU n) = 0 ∧ ordering (LRU.NewLRU n) = [] ∧
    (∀ k, LRU.Get (LRU.NewLRU n) k = some ((.nil, false), LRU.NewLRU n) ∧
      LRU.Peek (LRU.NewLRU n) k = some ((.nil, false), LRU.NewLRU n)) ∧
    (LRU.NewLRU n).capacity = (if n > 0 then n else 1) ∧
    (∀ c, Reachable c → 1 ≤ c.capacity) ∧
    (n ≤ 0 → ∀ (adds : List Item) (last : Item),
      ∃ rs c, run (LRU.NewLRU n) (addOps (adds ++ [last])) = some (rs, c) ∧
        ordering c = [.item last] ∧ LRU.Len c = 1 ∧
        c.holds last.Key last.Value ∧ ∀ k, k ≠ last.Key → c.lacks k) := by
  have hcapn : (LRU.NewLRU n).capacity = (if n > 0 then n else 1) := by
    show (if n ≤ 0 then 1 else n) = if n > 0 then n else 1
    split <;> split <;> omega
  refine ⟨rfl, rfl, fun k => ⟨rfl, rfl⟩, hcapn, fun c hr => hr.inv.cap_pos, ?_⟩
  intro hn adds last
  have hcap1 : (LRU.NewLRU n).capacity = 1 := by
    rw [hcapn]
    split <;> omega
  obtain ⟨rs, c, h1, h2, _, h4⟩ := run_adds_cap_one adds last _ (Inv.newLRU n) hcap1
  refine ⟨rs, c, h1, h4, ?_, ?_, ?_⟩
  · rw [← ordering_length, h4]
    rfl
  · rw [h2.holds_iff, h4]
    exact List.mem_singleton.2 rfl
  · intro k hk
    rw [h2.lacks_iff, h4]
    intro x hx
    rw [List.mem_singleton.1 hx]
    simpa [keyIs] using fun e : last.Key = k => hk e.symm

theorem C11_construction_witness :
    (LRU.NewLRU (-3)).capacity = 1 ∧ (LRU.NewLRU 0).capacity = 1 ∧
    (LRU.NewLRU 5).capacity = 5 ∧
    (∃ rs c, run (LRU.NewLRU (-3))
        (addOps ([⟨"a", .int 1⟩, ⟨"b", .int 2⟩, ⟨"a", .int 3⟩] ++ [⟨"c", .int 4⟩])) =
          some (rs, c) ∧
        ordering c = [.item ⟨"c", .int 4⟩] ∧ LRU.Len c = 1 ∧
        c.holds "c" (.int 4) ∧ ∀ k, k ≠ "c" → c.lacks k) ∧
    (run (LRU.NewLRU 0) [.add "a" (.int 1), .add "b" (.int 2), .get "a", .get "b", .len]).map
        Prod.fst =
      some [.unit, .unit, .value .nil false, .value (.int 2) true, .count 1] :=
  ⟨by decide, by decide, by decide,
    (C11_construction (-3)).2.2.2.2.2 (by decide)
      [⟨"a", .int 1⟩, ⟨"b", .int 2⟩, ⟨"a", .int 3⟩] ⟨"c", .int 4⟩,
    by decide⟩

/-- C12 (lookup of an absent key): in a reachable state where no entry of the
ordering has key `k`, the index has no entry for `k` either, `Get k` and
`Peek k` both return `(nil, false)`, and the state (ordering, index, element
store, capacity) is unchanged; a `Get` that misses reorders nothing. -/
theorem C12_lookup_absent (c : LRU) (hr : Reachable c) (k : String)
    (hk : ∀ x ∈ ordering c, keyIs k x = false) :
    c.lacks k ∧ LRU.Get c k = some ((.nil, false), c) ∧
      LRU.Peek c k = some ((.nil, false), c) := by
  have hl : c.lacks k := (hr.inv.lacks_iff k).2 hk
  exact ⟨hl, LRU.Get_miss hl, LRU.Peek_miss hl⟩

theorem C12_lookup_absent_witness :
    (∀ x ∈ ordering demoFull, keyIs "z" x = false) ∧
    demoFull.lacks "z" ∧ LRU.Get demoFull "z" = some ((.nil, false), demoFull) ∧
      LRU.Peek demoFull "z" = some ((.nil, false), demoFull) :=
  ⟨by decide, C12_lookup_absent demoFull (stateAfter_reachable _ _) "z" (by decide)⟩

/-- C13 (no speculative eviction): in a reachable state every `Add k v`
returns; at most one key that was present is absent afterwards, and a key that
was present is absent afterwards only if `k` was new and `Len = capacity`
before the call.  When `k` is new and `Len < capacity`, the ordering is the old
one with `(k, v)` put in front (every entry keeps its value and relative
order) and `Len` grows by exactly 1. -/
theorem C13_no_speculative_eviction (c : LRU) (hr : Reachable c) (k : String) (v : GoAny) :
    ∃ c1, LRU.Add c k v = some c1 ∧
      (∀ k1 v1 k2 v2, c.holds k1 v1 → c1.lacks k1 → c.holds k2 v2 → c1.lacks k2 → k1 = k2) ∧
      (∀ k1 v1, c.holds k1 v1 → c1.lacks k1 → c.lacks k ∧ LRU.Len c = c.capacity) ∧
      (c.lacks k → LRU.Len c < c.capacity →
        ordering c1 = .item ⟨k, v⟩ :: ordering c ∧ LRU.Len c1 = LRU.Len c + 1 ∧
        ∀ k1 v1, c.holds k1 v1 → c1.holds k1 v1) := by
  have hc := hr.inv
  cases hg : GoMap.get c.items k with
  | some h =>
    obtain ⟨c1, h1, _, _, h4, _, _⟩ := LRU.Add_hit hc hg v
    have keep : ∀ k1 v1, c.holds k1 v1 → c1.lacks k1 → False := by
      intro k1 v1 hh hl
      unfold LRU.lacks at hl
      rw [h4] at hl
      exact LRU.holds_not_lacks hh hl
    refine ⟨c1, h1, ?_, ?_, ?_⟩
    · intro k1 v1 k2 v2 hh hl _ _
      exact (keep k1 v1 hh hl).elim
    · intro k1 v1 hh hl
      exact (keep k1 v1 hh hl).elim
    · intro hl
      unfold LRU.lacks at hl
      rw [hg] at hl
      cases hl
  | none =>
    by_cases hlen : LRU.Len c ≥ c.capacity
    · obtain ⟨c1, h1, h2, _, h5⟩ := LRU.Add_full hc hg hlen v
      have hfulleq : LRU.Len c = c.capacity := le_antisymm hc.len_le hlen
      have gone : ∀ k1 v1, c.holds k1 v1 → c1.lacks k1 →
          (ordering c).getLast? = some (.item ⟨k1, v1⟩) := by
        intro k1 v1 hh hl
        have hm := (hc.holds_iff k1 v1).1 hh
        have hne : ordering c ≠ [] := List.ne_nil_of_mem hm
        have hsplit := List.dropLast_append_getLast hne
        rw [← hsplit] at hm
        rcases List.mem_append.1 hm with e | e
        · exfalso
          have hin : ElemValue.item ⟨k1, v1⟩ ∈ ordering c1 := by
            rw [h5]; exact List.mem_cons_of_mem _ e
          exact LRU.holds_not_lacks ((h2.holds_iff k1 v1).2 hin) hl
        · rw [List.getLast?_eq_getLast _ hne, ← List.mem_singleton.1 e]
      refine ⟨c1, h1, ?_, ?_, ?_⟩
      · intro k1 v1 k2 v2 hh1 hl1 hh2 hl2
        have e1 := gone k1 v1 hh1 hl1
        have e2 := gone k2 v2 hh2 hl2
        rw [e1] at e2
        injection e2 with e2
        injection e2 with e2
        injection e2
      · intro k1 v1 _ _
        exact ⟨hg, hfulleq⟩
      · intro _ hlt
        exact absurd hlen (not_le.2 hlt)
    · obtain ⟨c1, h1, h2, _, h5⟩ := LRU.Add_room hc hg (not_le.1 hlen) v
      have keep : ∀ k1 v1, c.holds k1 v1 → c1.holds k1 v1 := by
        intro k1 v1 hh
        rw [h2.holds_iff, h5]
        exact List.mem_cons_of_mem _ ((hc.holds_iff k1 v1).1 hh)
      refine ⟨c1, h1, ?_, ?_, ?_⟩
      · intro k1 v1 k2 v2 hh hl _ _
        exact (LRU.holds_not_lacks (keep k1 v1 hh) hl).elim
      · intro k1 v1 hh hl
        exact (LRU.holds_not_lacks (keep k1 v1 hh) hl).elim
      · intro _ _
        refine ⟨h5, ?_, keep⟩
        rw [← ordering_length, ← ordering_length, h5]
        simp

theorem C13_no_speculative_eviction_witness :
    (demoRoom.lacks "c" ∧ LRU.Len demoRoom < demoRoom.capacity) ∧
    ∃ c1, LRU.Add demoRoom "c" (.int 3) = some c1 ∧
      (∀ k1 v1 k2 v2, demoRoom.holds k1 v1 → c1.lacks k1 → demoRoom.holds k2 v2 →
        c1.lacks k2 → k1 = k2) ∧
      (∀ k1 v1, demoRoom.holds k1 v1 → c1.lacks k1 →
        demoRoom.lacks "c" ∧ LRU.Len demoRoom = demoRoom.capacity) ∧
      (demoRoom.lacks "c" → LRU.Len demoRoom < demoRoom.capacity →
        ordering c1 = .item ⟨"c", .int 3⟩ :: ordering demoRoom ∧
        LRU.Len c1 = LRU.Len demoRoom + 1 ∧
        ∀ k1 v1, demoRoom.holds k1 v1 → c1.holds k1 v1) :=
  ⟨by decide, C13_no_speculative_eviction demoRoom (stateAfter_reachable _ _) "c" (.int 3)⟩

/-- C14 (update in place): in a reachable state, after `Add a v1` followed by
`Add a v2`, `Get a` returns `(v2, true)` and `Len` is what it was right after
the first `Add`. -/
theorem C14_update_in_place (c : LRU) (hr : Reachable c) (a : String) (v1 v2 : GoAny) :
    ∃ c1 c2 c3, LRU.Add c a v1 = some c1 ∧ LRU.Add c1 a v2 = some c2 ∧
      LRU.Get c2 a = some ((v2, true), c3) ∧ LRU.Len c2 = LRU.Len c1 := by
  obtain ⟨c1, h1, h2, _, _, h5⟩ := LRU.Add_total hr.inv a v1
  obtain ⟨h, hg, _⟩ := LRU.holds_get h5
  obtain ⟨c2, g1, g2, _, _, g5, g6⟩ := LRU.Add_hit h2 hg v2
  have hh2 : c2.holds a v2 := by
    rw [g2.holds_iff, g6]
    simp
  obtain ⟨c3, g7⟩ := LRU.Get_of_holds g2 hh2
  exact ⟨c1, c2, c3, h1, g1, g7, Inv.len_perm g5⟩

theorem C14_update_in_place_witness :
    (∃ c1 c2 c3, LRU.Add demoFull "a" (.int 1) = some c1 ∧
      LRU.Add c1 "a" (.int 2) = some c2 ∧
      LRU.Get c2 "a" = some ((.int 2, true), c3) ∧ LRU.Len c2 = LRU.Len c1) ∧
    (run (LRU.NewLRU 2) [.add "a" (.int 1), .len, .add "a" (.int 2), .get "a", .len]).map
        Prod.fst =
      some [.unit, .count 1, .unit, .value (.int 2) true, .count 1] :=
  ⟨C14_update_in_place demoFull (stateAfter_reachable _ _) "a" (.int 1) (.int 2), by decide⟩

/-- C15 (index/ordering consistency): in every reachable state the keys of
the index are exactly the keys of the entries of the ordering, and every
element of the ordering is an entry (an item with a key): no index key without
an ordering entry, no ordering entry whose key is missing from the index. -/
theorem C15_index_ordering_consistency (c : LRU) (hr : Reachable c) :
    (∀ k, k ∈ c.items.map Prod.fst ↔ k ∈ (entries c).map Item.Key) ∧
    (∀ k, k ∈ c.items.map Prod.fst ↔ ∃ v, ElemValue.item ⟨k, v⟩ ∈ ordering c) ∧
    (∀ x ∈ ordering c, ∃ it, x = .item it ∧ it.Key ∈ c.items.map Prod.fst) := by
  have hc := hr.inv
  have key : ∀ k, k ∈ c.items.map Prod.fst ↔ ∃ v, ElemValue.item ⟨k, v⟩ ∈ ordering c := by
    intro k
    constructor
    · intro hk
      rcases hc.holds_or_lacks k with hl | ⟨v, hv⟩
      · exact absurd hk ((GoMap.get_eq_none_iff c.items k).1 hl)
      · exact ⟨v, (hc.holds_iff k v).1 hv⟩
    · rintro ⟨v, hv⟩
      by_contra hk
      have hl : c.lacks k := (GoMap.get_eq_none_iff c.items k).2 hk
      exact LRU.holds_not_lacks ((hc.holds_iff k v).2 hv) hl
  refine ⟨?_, key, ?_⟩
  · intro k
    rw [key k]
    constructor
    · rintro ⟨v, hv⟩
      exact List.mem_map.2 ⟨⟨k, v⟩, (hc.mem_entries _).2 hv, rfl⟩
    · intro hk
      obtain ⟨it, hit, e⟩ := List.mem_map.1 hk
      subst e
      exact ⟨it.Value, (hc.mem_entries it).1 hit⟩
  · intro x hx
    obtain ⟨it, e⟩ := hc.all_items x hx
    subst e
    exact ⟨it, rfl, (key it.Key).2 ⟨it.Value, hx⟩⟩

theorem C15_index_ordering_consistency_witness :
    ((∀ k, k ∈ demoFull.items.map Prod.fst ↔ k ∈ (entries demoFull).map Item.Key) ∧
      (∀ k, k ∈ demoFull.items.map Prod.fst ↔ ∃ v, ElemValue.item ⟨k, v⟩ ∈ ordering demoFull) ∧
      (∀ x ∈ ordering demoFull, ∃ it, x = .item it ∧ it.Key ∈ demoFull.items.map Prod.fst)) ∧
    demoFull.items.map Prod.fst = ["b", "a"] ∧
    (entries demoFull).map Item.Key = ["b", "a"] :=
  ⟨C15_index_ordering_consistency demoFull (stateAfter_reachable _ _), by decide, by decide⟩

/-- C18 (well-formedness): in every reachable state no key occurs twice in
the ordering (and every element of the ordering is an item), the number of
index entries equals the length of the ordering (`len(items) = queue.Len()`),
and for every key `k` of the index the element the index maps `k` to is an
element of the current ordering whose item has key `k`. -/
theorem C18_well_formed (c : LRU) (hr : Reachable c) :
    ((entries c).map Item.Key).Nodup ∧ ordering c = (entries c).map .item ∧
    c.queue.Nodup ∧
    (c.items.length : Int) = LRU.Len c ∧ c.items.length = c.queue.length ∧
    (∀ k h, GoMap.get c.items k = some h →
      h ∈ c.queue ∧ ∃ v, c.elems h = .item ⟨k, v⟩) := by
  have hc := hr.inv
  refine ⟨hc.entries_keys_nodup, hc.ordering_entries, hc.nodup, ?_, hc.items_length, ?_⟩
  · simp [LRU.Len, GoList.Len, hc.items_length]
  · intro k h hg
    exact ⟨(hc.items_queue k h hg).1, hc.elem_of_get hg⟩

theorem C18_well_formed_witness :
    (((entries demoFull).map Item.Key).Nodup ∧
      ordering demoFull = (entries demoFull).map .item ∧
      demoFull.queue.Nodup ∧
      (demoFull.items.length : Int) = LRU.Len demoFull ∧
      demoFull.items.length = demoFull.queue.length ∧
      (∀ k h, GoMap.get demoFull.items k = some h →
        h ∈ demoFull.queue ∧ ∃ v, demoFull.elems h = .item ⟨k, v⟩)) ∧
    demoFull.queue = [1, 0] ∧ demoFull.items = [("b", 1), ("a", 0)] :=
  ⟨C18_well_formed demoFull (stateAfter_reachable _ _), by decide, by decide⟩

/-- C19 (the defensive branches are dead): in every reachable state every
element of the ordering holds a non-nil `*Item`, so `Add`, `Get` and `Peek`
never panic; and when `Len ≥ capacity` (the condition under which `Add` calls
`evictOne`) the ordering has a back element that holds an item, so `evictOne`
and `deleteElement` take none of their early returns: the eviction removes that
one element from the ordering and its key from the index. -/
theorem C19_defensive_branches (c : LRU) (hr : Reachable c) :
    (∀ h ∈ c.queue, ∃ it, c.elems h = .item it) ∧
    (∀ k v, ∃ c1, LRU.Add c k v = some c1) ∧
    (∀ k, ∃ r c1, LRU.Get c k = some (r, c1)) ∧
    (∀ k, ∃ r, LRU.Peek c k = some (r, c)) ∧
    (LRU.Len c ≥ c.capacity →
      ∃ e it, GoList.Back c.queue = some e ∧ e ∈ c.queue ∧ c.elems e = .item it ∧
        GoMap.get c.items it.Key = some e ∧
        LRU.evictOne c =
          { c with queue := c.queue.erase e, items := GoMap.delete c.items it.Key } ∧
        (LRU.evictOne c).queue.length + 1 = c.queue.length ∧
        (LRU.evictOne c).items.length + 1 = c.items.length ∧
        e ∉ (LRU.evictOne c).queue ∧ (LRU.evictOne c).lacks it.Key) := by
  have hc := hr.inv
  refine ⟨?_, ?_, ?_, ?_, ?_⟩
  · intro h hq
    obtain ⟨it, hit, _⟩ := hc.queue_items h hq
    exact ⟨it, hit⟩
  · intro k v
    obtain ⟨c1, h1, _⟩ := LRU.Add_total hc k v
    exact ⟨c1, h1⟩
  · intro k
    cases hg : GoMap.get c.items k with
    | none => exact ⟨_, _, LRU.Get_miss hg⟩
    | some h =>
      obtain ⟨v, c1, _, h1, _⟩ := LRU.Get_hit hc hg
      exact ⟨_, c1, h1⟩
  · intro k
    cases hg : GoMap.get c.items k with
    | none => exact ⟨_, LRU.Peek_miss hg⟩
    | some h =>
      obtain ⟨v, _, h1⟩ := LRU.Peek_hit hc hg
      exact ⟨_, h1⟩
  · intro hlen
    obtain ⟨e, it, he, heq, hit, hget, hev⟩ := LRU.evictOne_explicit hc hlen
    have hinv : Inv (LRU.evictOne c) := (LRU.evictOne_full hc hlen).1
    have hq : (LRU.evictOne c).queue = c.queue.erase e := by rw [hev]
    have hql : (LRU.evictOne c).queue.length + 1 = c.queue.length := by
      rw [hq, List.length_erase_of_mem heq]
      have : 0 < c.queue.length := List.length_pos_of_mem heq
      omega
    refine ⟨e, it, he, heq, hit, hget, hev, hql, ?_, ?_, ?_⟩
    · rw [hinv.items_length, hc.items_length]
      exact hql
    · rw [hq]
      exact fun hm => (hc.nodup.mem_erase_iff.1 hm).1 rfl
    · show GoMap.get (LRU.evictOne c).items it.Key = none
      rw [hev]
      show GoMap.get (GoMap.delete c.items it.Key) it.Key = none
      rw [GoMap.get_delete]
      simp

theorem C19_defensive_branches_witness :
    LRU.Len demoFull ≥ demoFull.capacity ∧
    ((∀ h ∈ demoFull.queue, ∃ it, demoFull.elems h = .item it) ∧
    (∀ k v, ∃ c1, LRU.Add demoFull k v = some c1) ∧
    (∀ k, ∃ r c1, LRU.Get demoFull k = some (r, c1)) ∧
    (∀ k, ∃ r, LRU.Peek demoFull k = some (r, demoFull)) ∧
    (LRU.Len demoFull ≥ demoFull.capacity →
      ∃ e it, GoList.Back demoFull.queue = some e ∧ e ∈ demoFull.queue ∧
        demoFull.elems e = .item it ∧
        GoMap.get demoFull.items it.Key = some e ∧
        LRU.evictOne demoFull =
          { demoFull with queue := demoFull.queue.erase e,
                          items := GoMap.delete demoFull.items it.Key } ∧
        (LRU.evictOne demoFull).queue.length + 1 = demoFull.queue.length ∧
        (LRU.evictOne demoFull).items.length + 1 = demoFull.items.length ∧
        e ∉ (LRU.evictOne demoFull).queue ∧ (LRU.evictOne demoFull).lacks it.Key)) ∧
    GoList.Back demoFull.queue = some 0 ∧ demoFull.elems 0 = .item ⟨"a", .int 1⟩ ∧
    (LRU.evictOne demoFull).queue = [1] ∧ (LRU.evictOne demoFull).items = [("b", 1)] :=
  ⟨by decide, C19_defensive_branches demoFull (stateAfter_reachable _ _),
    by decide, by decide, by decide, by decide⟩

/-- C20 (refinement): for every `n` and every sequence of calls, the program
started from `NewLRU n` and the pure model started from the empty list with the
normalised capacity (at least 1) return the same results, the ordering read
front to back is the model list, and the model list has no duplicate key. -/
theorem C20_refinement (n : Int) (ops : List Op) :
    ∃ rs c l, run (LRU.NewLRU n) ops = some (rs, c) ∧
      SpecModel.run (if n > 0 then n else 1) [] ops = (rs, l) ∧
      ordering c = SpecModel.toOrdering l ∧ (l.map Prod.fst).Nodup ∧
      LRU.Len c = SpecModel.Len l ∧
      c.capacity = (if n > 0 then n else 1) ∧ 1 ≤ c.capacity := by
  obtain ⟨rs, c, h1, h2, h3, _, h5⟩ := run_spec (Inv.newLRU n) ops
  have hcap : (LRU.NewLRU n).capacity = (if n > 0 then n else 1) := by
    show (if n ≤ 0 then 1 else n) = if n > 0 then n else 1
    split <;> split <;> omega
  have hempty : ordering (LRU.NewLRU n) = SpecModel.toOrdering [] := rfl
  rw [hcap, hempty, SpecModel.run_abs] at h5
  injection h5 with h6 h7
  have hord : ordering c = SpecModel.toOrdering (SpecModel.run (if n > 0 then n else 1) [] ops).2 :=
    h7.symm
  refine ⟨rs, c, (SpecModel.run (if n > 0 then n else 1) [] ops).2, h1, ?_, hord,
    SpecModel.keys_of_ordering h2 hord, ?_, h3.trans hcap, h2.cap_pos⟩
  · rw [← h6]
  · rw [← ordering_length, hord]
    simp [SpecModel.toOrdering, SpecModel.Len]

/-- C16 (recency order): number the calls of a run from `NewLRU n` 1, 2, ...
and let the latest touch of a key be the number of the last `Add` of it or
`Get` that found it (`touchTimes`).  After the run, the keys of the ordering,
front to back, have strictly decreasing latest touches (each between 1 and the
number of calls): the front key is the present key touched most recently and
the back key, the next eviction candidate, the one touched longest ago. -/
theorem C16_recency_order (n : Int) (ops : List Op) :
    ∃ rs c, run (LRU.NewLRU n) ops = some (rs, c) ∧
      ((entries c).map Item.Key).Pairwise
        (fun a b => touchTimes n ops b < touchTimes n ops a) ∧
      (∀ k ∈ (entries c).map Item.Key, 1 ≤ touchTimes n ops k ∧ touchTimes n ops k ≤ ops.length) ∧
      (∀ front rest, (entries c).map Item.Key = front :: rest →
        ∀ k ∈ rest, touchTimes n ops k < touchTimes n ops front) ∧
      (∀ init back, (entries c).map Item.Key = init ++ [back] →
        ∀ k ∈ init, touchTimes n ops back < touchTimes n ops k) := by
  obtain ⟨rs, c, h1, h2, h3, h4, h5⟩ :=
    lastTouch_sorted ops (LRU.NewLRU n) 0 (fun _ => 0) (Inv.newLRU n) (fun _ => Nat.le_refl 0)
      List.Pairwise.nil (fun x hx => by cases hx)
  have hkeys : ((entries c).map Item.Key).Pairwise
      (fun a b => touchTimes n ops b < touchTimes n ops a) := by
    rw [h2.ordering_entries, List.pairwise_map] at h3
    rw [List.pairwise_map]
    exact h3
  refine ⟨rs, c, h1, hkeys, ?_, ?_, ?_⟩
  · intro k hk
    obtain ⟨it, hit, e⟩ := List.mem_map.1 hk
    subst e
    refine ⟨h4 (.item it) ((h2.mem_entries it).1 hit), ?_⟩
    have := h5 it.Key
    simpa [touchTimes] using this
  · intro front rest e k hk
    rw [e, List.pairwise_cons] at hkeys
    exact hkeys.1 k hk
  · intro init back e k hk
    rw [e, List.pairwise_append] at hkeys
    exact hkeys.2.2 k hk back (List.mem_singleton.2 rfl)

theorem C16_recency_order_witness :
    (∃ rs c, run (LRU.NewLRU 2)
        [.add "a" (.int 1), .add "b" (.int 2), .get "a", .peek "b", .get "z", .add "c" (.int 3)] =
          some (rs, c) ∧
      ((entries c).map Item.Key).Pairwise
        (fun a b =>
          touchTimes 2 [.add "a" (.int 1), .add "b" (.int 2), .get "a", .peek "b", .get "z",
            .add "c" (.int 3)] b <
          touchTimes 2 [.add "a" (.int 1), .add "b" (.int 2), .get "a", .peek "b", .get "z",
            .add "c" (.int 3)] a)) ∧
    (entries (stateAfter 2
        [.add "a" (.int 1), .add "b" (.int 2), .get "a", .peek "b", .get "z",
          .add "c" (.int 3)])).map Item.Key = ["c", "a"] ∧
    touchTimes 2 [.add "a" (.int 1), .add "b" (.int 2), .get "a", .peek "b", .get "z",
      .add "c" (.int 3)] "c" = 6 ∧
    touchTimes 2 [.add "a" (.int 1), .add "b" (.int 2), .get "a", .peek "b", .get "z",
      .add "c" (.int 3)] "a" = 3 ∧
    touchTimes 2 [.add "a" (.int 1), .add "b" (.int 2), .get "a", .peek "b", .get "z",
      .add "c" (.int 3)] "b" = 2 ∧
    touchTimes 2 [.add "a" (.int 1), .add "b" (.int 2), .get "a", .peek "b", .get "z",
      .add "c" (.int 3)] "z" = 0 :=
  ⟨(C16_recency_order 2
      [.add "a" (.int 1), .add "b" (.int 2), .get "a", .peek "b", .get "z",
        .add "c" (.int 3)]).imp fun _ h => h.imp fun _ h => ⟨h.1, h.2.1⟩,
    by decide, by decide, by decide, by decide, by decide⟩

end LRUCache
